import Mathlib

/-!
Verification of the NSGA-II core of the GENETIS-RHINO repository.

The development shallowly embeds the Python sources (`src/Evolver.py`,
`src/Selectors.py`, `src/Phenotype.py`, `src/Genotype.py`, `src/WallPair.py`)
into Lean: pure functions become Lean functions, in-place attribute updates
become explicit state passing, Python floats become rationals (scores and gene
values are ordinary numeric data here), `float("inf")` becomes the top element
of `WithTop ℚ`, and calls that raise in Python return `Except PyErr`.
-/

set_option linter.unusedVariables false

attribute [local semireducible] Rat.add Rat.mul Rat.sub Rat.inv Rat.ofScientific

/-- Kinds of Python exceptions raised by the embedded code. -/
inductive PyErr where
  | typeError
  | attributeError
  | valueError
  | nonTermination
deriving DecidableEq, Repr

/-- Model of an individual as consumed by the NSGA-II helpers in
`src/Evolver.py` (and built in `tests/test_Evolver.py`): an object carrying an
`id`, a `fitness` mapping from objective name to score, and the
engine-assigned `nsgaii_rank` and `nsgaii_distance` attributes.

All individuals of a population share one objective key-set, so the fitness
mapping is modelled as the list of scores in one fixed global key order;
`nsgaii_distance` is `float`, possibly `float("inf")`, modelled as `WithTop ℚ`.
Python compares population members by object identity (`indiv is q`); the sort
below therefore works with positions in the population list. -/
structure Individual where
  id : ℕ
  fitness : List ℚ
  nsgaii_rank : ℕ := 0
  nsgaii_distance : WithTop ℚ := 0
deriving DecidableEq, Repr

instance : Inhabited Individual := ⟨⟨0, [], 0, 0⟩⟩

/-- `all(p.fitness[obj] <= q.fitness[obj] for obj in p.fitness)` over the two
score lists laid out in the shared key order. -/
def leAll (a b : List ℚ) : Bool :=
  (a.zip b).all fun ab => decide (ab.1 ≤ ab.2)

/-- `any(p.fitness[obj] < q.fitness[obj] for obj in p.fitness)` over the two
score lists laid out in the shared key order. -/
def ltAny (a b : List ℚ) : Bool :=
  (a.zip b).any fun ab => decide (ab.1 < ab.2)

/-- `dominates(p, q)` from `src/Evolver.py` (minimization): p's score is `<=`
q's score on every objective of p's fitness mapping and `<` on at least one. -/
def dominates (p q : Individual) : Bool :=
  leAll p.fitness q.fitness && ltAny p.fitness q.fitness

theorem leAll_nil_left (b : List ℚ) : leAll [] b = true := rfl

theorem leAll_cons (x y : ℚ) (xs ys : List ℚ) :
    leAll (x :: xs) (y :: ys) = (decide (x ≤ y) && leAll xs ys) := rfl

theorem ltAny_cons (x y : ℚ) (xs ys : List ℚ) :
    ltAny (x :: xs) (y :: ys) = (decide (x < y) || ltAny xs ys) := rfl

/-- Mutual `<=` on every shared objective forbids any strict `<`. -/
theorem ltAny_eq_false_of_leAll_both :
    ∀ a b : List ℚ, leAll a b = true → leAll b a = true → ltAny a b = false
  | [], b, _, _ => rfl
  | a :: as, [], _, _ => rfl
  | x :: xs, y :: ys, hab, hba => by
    rw [leAll_cons] at hab hba
    simp only [Bool.and_eq_true, decide_eq_true_eq] at hab hba
    rw [ltAny_cons]
    have hxy : ¬ x < y := not_lt.mpr hba.1
    simp [hxy, ltAny_eq_false_of_leAll_both xs ys hab.2 hba.2]

theorem leAll_trans (a : List ℚ) :
    ∀ b c : List ℚ, a.length = b.length → b.length = c.length →
      leAll a b = true → leAll b c = true → leAll a c = true := by
  induction a with
  | nil => intro b c _ _ _ _; rfl
  | cons x xs ih =>
    intro b c hab hbc h1 h2
    cases b with
    | nil => simp at hab
    | cons y ys =>
      cases c with
      | nil => simp at hbc
      | cons z zs =>
        rw [leAll_cons] at h1 h2 ⊢
        simp only [Bool.and_eq_true, decide_eq_true_eq] at h1 h2 ⊢
        refine ⟨h1.1.trans h2.1, ?_⟩
        exact ih ys zs (by simpa using hab) (by simpa using hbc) h1.2 h2.2

theorem ltAny_trans_left (a : List ℚ) :
    ∀ b c : List ℚ, a.length = b.length → b.length = c.length →
      ltAny a b = true → leAll b c = true → ltAny a c = true := by
  induction a with
  | nil => intro b c _ _ h1 _; simp [ltAny] at h1
  | cons x xs ih =>
    intro b c hab hbc h1 h2
    cases b with
    | nil => simp at hab
    | cons y ys =>
      cases c with
      | nil => simp at hbc
      | cons z zs =>
        rw [ltAny_cons] at h1 ⊢
        rw [leAll_cons] at h2
        simp only [Bool.or_eq_true, Bool.and_eq_true, decide_eq_true_eq] at h1 h2 ⊢
        rcases h1 with h1 | h1
        · exact Or.inl (lt_of_lt_of_le h1 h2.1)
        · exact Or.inr (ih ys zs (by simpa using hab) (by simpa using hbc) h1 h2.2)

theorem ltAny_trans_right (a : List ℚ) :
    ∀ b c : List ℚ, a.length = b.length → b.length = c.length →
      leAll a b = true → ltAny b c = true → ltAny a c = true := by
  induction a with
  | nil => intro b c hab _ _ h2; cases b with
    | nil => simp [ltAny] at h2
    | cons y ys => simp at hab
  | cons x xs ih =>
    intro b c hab hbc h1 h2
    cases b with
    | nil => simp at hab
    | cons y ys =>
      cases c with
      | nil => simp [ltAny] at h2
      | cons z zs =>
        rw [ltAny_cons] at h2 ⊢
        rw [leAll_cons] at h1
        simp only [Bool.or_eq_true, Bool.and_eq_true, decide_eq_true_eq] at h1 h2 ⊢
        rcases h2 with h2 | h2
        · exact Or.inl (lt_of_le_of_lt h1.1 h2)
        · exact Or.inr (ih ys zs (by simpa using hab) (by simpa using hbc) h1.2 h2)

/-- Dominance is asymmetric, with no assumption on the two score lists. -/
theorem dominates_asymm (p q : Individual)
    (hpq : dominates p q = true) (hqp : dominates q p = true) : False := by
  unfold dominates at hpq hqp
  simp only [Bool.and_eq_true] at hpq hqp
  have := ltAny_eq_false_of_leAll_both p.fitness q.fitness hpq.1 hqp.1
  rw [hpq.2] at this
  simp at this

theorem dominates_trans (p q r : Individual)
    (hpq : p.fitness.length = q.fitness.length)
    (hqr : q.fitness.length = r.fitness.length)
    (h1 : dominates p q = true) (h2 : dominates q r = true) :
    dominates p r = true := by
  unfold dominates at h1 h2 ⊢
  simp only [Bool.and_eq_true] at h1 h2 ⊢
  exact ⟨leAll_trans _ _ _ hpq hqr h1.1 h2.1,
    ltAny_trans_left _ _ _ hpq hqr h1.2 h2.1⟩

/-- Irreflexivity of dominance: no strict improvement over oneself. -/
theorem dominates_irrefl (p : Individual) : dominates p p = false := by
  cases h : dominates p p
  · rfl
  · exact (dominates_asymm p p h h).elim

/-- `indiv.dominated_set` of `fast_non_dominated_sort`: the positions `j` of
population members (other than `i` itself, Python's `indiv is q` test) that
`pop[i]` dominates, in population order. -/
def domList (pop : List Individual) (i : ℕ) : List ℕ :=
  (List.range pop.length).filter fun j =>
    decide (j ≠ i) && dominates (pop.getD i default) (pop.getD j default)

/-- `indiv.domination_count` of `fast_non_dominated_sort`: how many members
dominate `pop[i]`.  The `elif` in the source counts `q` only when
`dominates(indiv, q)` was false, mirrored literally here. -/
def domCount (pop : List Individual) (i : ℕ) : ℤ :=
  ((List.range pop.length).filter fun j =>
    decide (j ≠ i) && !dominates (pop.getD i default) (pop.getD j default) &&
      dominates (pop.getD j default) (pop.getD i default)).length

/-- One step of the inner loop of `fast_non_dominated_sort`: decrement
`q.domination_count`; if it reached zero, set `q.nsgaii_rank = i + 1` and
append `q` to `next_front`.  The state is (domination counts by position,
assigned ranks by position, `next_front`). -/
def decStep (ranknum : ℕ) (st : (ℕ → ℤ) × (ℕ → Option ℕ) × List ℕ) (q : ℕ) :
    (ℕ → ℤ) × (ℕ → Option ℕ) × List ℕ :=
  let c := Function.update st.1 q (st.1 q - 1)
  if c q = 0 then (c, Function.update st.2.1 q (some ranknum), st.2.2 ++ [q])
  else (c, st.2.1, st.2.2)

/-- The body of the `while` loop of `fast_non_dominated_sort`: for each
individual of the current front, walk its `dominated_set` decrementing
domination counts and collecting the next front. -/
def processFront (pop : List Individual) (ranknum : ℕ) (counts : ℕ → ℤ)
    (ranks : ℕ → Option ℕ) (current : List ℕ) :
    (ℕ → ℤ) × (ℕ → Option ℕ) × List ℕ :=
  current.foldl (fun st i => (domList pop i).foldl (decStep ranknum) st)
    (counts, ranks, [])

/-- The `while fronts[i]:` loop of `fast_non_dominated_sort`.  `fuel` bounds
the number of iterations; the entry point passes `pop.length + 1`, which is
proved sufficient below.  Returns the non-empty fronts (Python's
`fronts[:-1]`) and the final rank assignment. -/
def sortLoop (pop : List Individual) :
    ℕ → ℕ → (ℕ → ℤ) → (ℕ → Option ℕ) → List ℕ → List (List ℕ) × (ℕ → Option ℕ)
  | 0, _, _, ranks, _ => ([], ranks)
  | fuel + 1, i, counts, ranks, current =>
    if current = [] then ([], ranks)
    else
      let st := processFront pop (i + 1) counts ranks current
      let rest := sortLoop pop fuel (i + 1) st.1 st.2.1 st.2.2
      (current :: rest.1, rest.2)

/-- `fast_non_dominated_sort(population)` from `src/Evolver.py`.  Individuals
are identified by their position in the population list (Python mutates the
individual objects; the returned fronts are lists of positions, and the rank
assignment `nsgaii_rank` is returned as a partial map from positions). -/
def fast_non_dominated_sort (pop : List Individual) :
    List (List ℕ) × (ℕ → Option ℕ) :=
  let n := pop.length
  let counts0 : ℕ → ℤ := fun i => domCount pop i
  let front0 := (List.range n).filter fun i => decide (counts0 i = 0)
  let ranks0 : ℕ → Option ℕ := fun i =>
    if domCount pop i = 0 ∧ i < n then some 0 else none
  sortLoop pop (n + 1) 0 counts0 ranks0 front0

/-- The seven-individual population of `tests/test_Evolver.py` and of the
spec's scenario, in order: ids 1..7. -/
def popSeven : List Individual :=
  [⟨1, [10, 20, 30], 0, 0⟩, ⟨2, [20, 10, 30], 0, 0⟩, ⟨3, [30, 20, 10], 0, 0⟩,
   ⟨4, [100, 200, 300], 0, 0⟩, ⟨5, [200, 100, 300], 0, 0⟩,
   ⟨6, [999, 999, 999], 0, 0⟩, ⟨7, [15, 15, 25], 0, 0⟩]

/-- `indiv.fitness[obj]` for the `obj`-th objective key (total via a default;
callers establish that `obj` is within the shared key-set). -/
def fitObj (x : Individual) (obj : ℕ) : ℚ := x.fitness.getD obj 0

/-- The sort key `lambda indiv: indiv.fitness[obj]` of
`crowding_distance_assignment`, as a boolean comparison for the stable sort. -/
def byObjLe (obj : ℕ) (a b : Individual) : Bool :=
  decide (fitObj a obj ≤ fitObj b obj)

/-- What one objective pass of `crowding_distance_assignment` does to the
element at position `i` of the front `s` sorted for that objective: the
boundary points get infinite distance; an interior point whose distance is not
already infinite accumulates the normalized neighbour gap. -/
def cdaUpd (s : List Individual) (obj : ℕ) (fmin fmax : ℚ) (i : ℕ)
    (x : Individual) : Individual :=
  if i = 0 ∨ i = s.length - 1 then { x with nsgaii_distance := ⊤ }
  else if x.nsgaii_distance = ⊤ then x
  else { x with nsgaii_distance := x.nsgaii_distance +
    (((fitObj (s.getD (i + 1) x) obj - fitObj (s.getD (i - 1) x) obj) /
      (fmax - fmin) : ℚ) : WithTop ℚ) }

/-- Apply a position-dependent update to every element of a list. -/
def idxMap (f : ℕ → Individual → Individual) : ℕ → List Individual → List Individual
  | _, [] => []
  | i, x :: xs => f i x :: idxMap f (i + 1) xs

/-- One iteration of the `for obj in front[0].fitness:` loop of
`crowding_distance_assignment`: stable-sort the front by the objective, read
`f_min`/`f_max` off the ends, `continue` when they are equal (division by
zero guard), otherwise update boundary and interior points. -/
def cdaPass (l : List Individual) (obj : ℕ) : List Individual :=
  match l.mergeSort (byObjLe obj) with
  | [] => []
  | x :: rest =>
    let fmin := fitObj x obj
    let fmax := fitObj ((x :: rest).getLast (List.cons_ne_nil x rest)) obj
    if fmin = fmax then x :: rest
    else idxMap (cdaUpd (x :: rest) obj fmin fmax) 0 (x :: rest)

/-- `crowding_distance_assignment(front)` from `src/Evolver.py`.  Python
mutates `front` (both the `nsgaii_distance` attributes and, for fronts of
three or more, the list order via in-place sorting); the embedding returns the
resulting list.  `num_for_double_front = 2` is the source's name for the
two-element boundary case. -/
def crowding_distance_assignment (front : List Individual) : List Individual :=
  if front.length = 0 then front
  else if front.length = 1 then
    [{ front.getD 0 default with nsgaii_distance := ⊤ }]
  else if front.length = 2 then
    [{ front.getD 0 default with nsgaii_distance := ⊤ },
     { front.getD 1 default with nsgaii_distance := ⊤ }]
  else
    let init := front.map fun x => { x with nsgaii_distance := ((0 : ℚ) : WithTop ℚ) }
    (List.range (front.getD 0 default).fitness.length).foldl cdaPass init

/-- Model of `random.Random`: one sequential stream of draws.  `k` counts the
draws made so far; `ints k`, `unifs k` and `gausses k` give the value produced
when the `k`-th draw is, respectively, an integer draw (for `randint`,
`sample`, `choice`), a `random()` draw in `[0,1)` feeding `uniform`, or a
standard normal draw feeding `gauss`.  Every operation consumes from this one
stream, so a `RandS` value models one generator state: identical states and
identical call sequences give identical draws. -/
structure RandS where
  ints : ℕ → ℕ
  unifs : ℕ → ℚ
  gausses : ℕ → ℚ
  k : ℕ := 0

/-- `rand.uniform(a, b) = a + (b - a) * random()`. -/
def RandS.uniform (r : RandS) (a b : ℚ) : ℚ × RandS :=
  (a + (b - a) * r.unifs r.k, { r with k := r.k + 1 })

/-- `rand.gauss(mu, sigma) = mu + sigma * (standard normal draw)`. -/
def RandS.gauss (r : RandS) (mu sigma : ℚ) : ℚ × RandS :=
  (mu + sigma * r.gausses r.k, { r with k := r.k + 1 })

/-- `rand.randint(a, b)`: an integer in `[a, b]`, both ends included. -/
def RandS.randint (r : RandS) (a b : ℕ) : ℕ × RandS :=
  (a + r.ints r.k % (b + 1 - a), { r with k := r.k + 1 })

/-- `i1, i2 = rand.sample(selection_pool, 2)`: two individuals at distinct
positions, drawn without replacement (the second position is drawn among the
remaining `n - 1` and skips the first), any ordered pair of distinct
positions being reachable.  `random.sample` raises `ValueError` when the pool
has fewer than two elements. -/
def sampleTwo (pool : List Individual) (r : RandS) :
    Except PyErr ((Individual × Individual) × RandS) :=
  let n := pool.length
  if n < 2 then .error .valueError
  else
    let a := r.ints r.k % n
    let t := r.ints (r.k + 1) % (n - 1)
    let b := if t < a then t else t + 1
    .ok ((pool.getD a default, pool.getD b default), { r with k := r.k + 2 })

/-- `NSGATournament.select_one(self, selection_pool, rand)` from
`src/Selectors.py`, the binary tournament itself (as exercised on an instance
by `tests/test_Selectors.py`): sample two, compare rank, then crowding
distance, then `rand.choice([i1, i2])`. -/
def NSGATournament.select_one (selection_pool : List Individual) (rand : RandS) :
    Except PyErr (Individual × RandS) :=
  match sampleTwo selection_pool rand with
  | .error e => .error e
  | .ok ((i1, i2), r1) =>
    if i1.nsgaii_rank < i2.nsgaii_rank then .ok (i1, r1)
    else if i2.nsgaii_rank < i1.nsgaii_rank then .ok (i2, r1)
    else if i1.nsgaii_distance > i2.nsgaii_distance then .ok (i1, r1)
    else if i2.nsgaii_distance > i1.nsgaii_distance then .ok (i2, r1)
    else
      let c := r1.ints r1.k % 2
      .ok (if c = 0 then i1 else i2, { r1 with k := r1.k + 1 })

/-- A wall pair from `src/WallPair.py`.  In Python the constructor parameters
default to `None`; the embedding covers the numeric states the generation,
mutation and construction claims are about. -/
structure WallPair where
  has_ridge : Bool
  angle : ℚ
  ridge_height : ℚ
  ridge_width_top : ℚ
  ridge_width_bottom : ℚ
  ridge_thickness_top : ℚ
  ridge_thickness_bottom : ℚ
deriving DecidableEq, Repr

instance : Inhabited WallPair := ⟨⟨false, 0, 0, 0, 0, 0, 0⟩⟩

def WallPair.MIN_ANGLE : ℚ := 0

def WallPair.MAX_ANGLE : ℚ := 90

def WallPair.MIN_RIDGE_HEIGHT : ℚ := 0

def WallPair.MAX_RIDGE_HEIGHT : ℚ := 100

def WallPair.MIN_RIDGE_WIDTH_TOP : ℚ := 0

def WallPair.MAX_RIDGE_WIDTH_TOP : ℚ := 100

def WallPair.MIN_RIDGE_WIDTH_BOTTOM : ℚ := 0

def WallPair.MAX_RIDGE_WIDTH_BOTTOM : ℚ := 100

def WallPair.MIN_RIDGE_THICKNESS_TOP : ℚ := 0

def WallPair.MAX_RIDGE_THICKNESS_TOP : ℚ := 100

def WallPair.MIN_RIDGE_THICKNESS_BOTTOM : ℚ := 0

def WallPair.MAX_RIDGE_THICKNESS_BOTTOM : ℚ := 100

/-- `WallPair.__init__(self, angle, ridge_height, ridge_width_top,
ridge_width_bottom, ridge_thickness_top, ridge_thickness_bottom)`: stores the
six values exactly as given — it performs no validation of any kind — and
initializes `has_ridge` to `False`.  There is no `has_ridge` parameter.
Wrapped in `Except` to record that no execution path raises. -/
def WallPair.init (angle ridge_height ridge_width_top ridge_width_bottom
    ridge_thickness_top ridge_thickness_bottom : ℚ) : Except PyErr WallPair :=
  .ok ⟨false, angle, ridge_height, ridge_width_top, ridge_width_bottom,
    ridge_thickness_top, ridge_thickness_bottom⟩

/-- `WallPair.generate_without_ridge(self, rand)`: six uniform draws from the
declared intervals, in source order, then `WallPair(...)` (so `has_ridge`
stays `False`). -/
def WallPair.generate_without_ridge (r : RandS) : WallPair × RandS :=
  let (angle, r) := r.uniform WallPair.MIN_ANGLE WallPair.MAX_ANGLE
  let (ridge_height, r) := r.uniform WallPair.MIN_RIDGE_HEIGHT WallPair.MAX_RIDGE_HEIGHT
  let (ridge_width_top, r) := r.uniform WallPair.MIN_RIDGE_WIDTH_TOP WallPair.MAX_RIDGE_WIDTH_TOP
  let (ridge_width_bottom, r) := r.uniform WallPair.MIN_RIDGE_WIDTH_BOTTOM WallPair.MAX_RIDGE_WIDTH_BOTTOM
  let (ridge_thickness_top, r) := r.uniform WallPair.MIN_RIDGE_THICKNESS_TOP WallPair.MAX_RIDGE_THICKNESS_TOP
  let (ridge_thickness_bottom, r) := r.uniform WallPair.MIN_RIDGE_THICKNESS_BOTTOM WallPair.MAX_RIDGE_THICKNESS_BOTTOM
  (⟨false, angle, ridge_height, ridge_width_top, ridge_width_bottom,
    ridge_thickness_top, ridge_thickness_bottom⟩, r)

/-- One `while wp.x == 0: wp.x = rand.uniform(lo, hi)` redraw loop of
`generate_with_ridge`.  `fuel` bounds the redraws; a long enough run of zero
draws makes the Python loop spin forever, reported here as
`nonTermination`. -/
def redrawZero (lo hi : ℚ) : ℕ → ℚ → RandS → Except PyErr (ℚ × RandS)
  | 0, v, r => if v = 0 then .error .nonTermination else .ok (v, r)
  | fuel + 1, v, r =>
    if v = 0 then
      let p := r.uniform lo hi
      redrawZero lo hi fuel p.1 p.2
    else .ok (v, r)

def REDRAW_FUEL : ℕ := 20

/-- `WallPair.generate_with_ridge(self, rand)`: generate without a ridge,
redraw each ridge dimension while it is exactly zero, then set
`has_ridge = True`. -/
def WallPair.generate_with_ridge (r : RandS) : Except PyErr (WallPair × RandS) := do
  let (wp, r) := WallPair.generate_without_ridge r
  let (rh, r) ← redrawZero WallPair.MIN_RIDGE_HEIGHT WallPair.MAX_RIDGE_HEIGHT
    REDRAW_FUEL wp.ridge_height r
  let (rwt, r) ← redrawZero WallPair.MIN_RIDGE_WIDTH_TOP WallPair.MAX_RIDGE_WIDTH_TOP
    REDRAW_FUEL wp.ridge_width_top r
  let (rwb, r) ← redrawZero WallPair.MIN_RIDGE_WIDTH_BOTTOM WallPair.MAX_RIDGE_WIDTH_BOTTOM
    REDRAW_FUEL wp.ridge_width_bottom r
  let (rtt, r) ← redrawZero WallPair.MIN_RIDGE_THICKNESS_TOP WallPair.MAX_RIDGE_THICKNESS_TOP
    REDRAW_FUEL wp.ridge_thickness_top r
  let (rtb, r) ← redrawZero WallPair.MIN_RIDGE_THICKNESS_BOTTOM WallPair.MAX_RIDGE_THICKNESS_BOTTOM
    REDRAW_FUEL wp.ridge_thickness_bottom r
  .ok ({ wp with ridge_height := rh, ridge_width_top := rwt,
                 ridge_width_bottom := rwb, ridge_thickness_top := rtt,
                 ridge_thickness_bottom := rtb, has_ridge := true }, r)

/-- The `for _ in range(num_wall_pairs):` loop of `generate_list`.  The coin
deciding ridge vs no ridge is `random.randint(0, 1)` — drawn from the
MODULE-level `random`, not from the `rand` parameter — so the ambient global
generator is threaded as a second stream `g`. -/
def WallPair.generateListGo :
    ℕ → List WallPair → RandS → RandS → Except PyErr (List WallPair × RandS × RandS)
  | 0, walls, rand, g => .ok (walls, rand, g)
  | n + 1, walls, rand, g =>
    let (coin, g') := g.randint 0 1
    if coin = 0 then
      let (wp, rand') := WallPair.generate_without_ridge rand
      WallPair.generateListGo n (walls ++ [wp]) rand' g'
    else
      match WallPair.generate_with_ridge rand with
      | .error e => .error e
      | .ok (wp, rand') => WallPair.generateListGo n (walls ++ [wp]) rand' g'

/-- `WallPair.generate_list(self, num_wall_pairs, rand)` from
`src/WallPair.py`: `ValueError` for a non-positive count, otherwise
`num_wall_pairs` wall pairs, each generated with or without ridge according
to the module-level `random.randint(0, 1)` coin (second stream). -/
def WallPair.generate_list (num_wall_pairs : ℕ) (rand : RandS)
    (globalRandom : RandS) : Except PyErr (List WallPair × RandS × RandS) :=
  if num_wall_pairs ≤ 0 then .error .valueError
  else WallPair.generateListGo num_wall_pairs [] rand globalRandom

/-- The parameters of `src/Parameters.py` that the genotype operations read
(validated config values). -/
structure ParametersObject where
  per_site_mut_rate : ℚ
  mut_effect_size : ℚ
  MIN_HEIGHT : ℚ
  MAX_HEIGHT : ℚ
  MIN_WAVEGUIDE_HEIGHT : ℚ
  MAX_WAVEGUIDE_HEIGHT : ℚ
  MIN_WAVEGUIDE_LENGTH : ℚ
  MAX_WAVEGUIDE_LENGTH : ℚ
deriving DecidableEq, Repr

/-- A `Genotype` from `src/Genotype.py`: the three scalar genes, the wall
pairs, and the stored config (whose bound constants the instance copies).
The constructor's `ValueError` for a walls list containing non-`WallPair`
elements is ruled out statically by the typed `walls` field. -/
structure Genotype where
  cfg : ParametersObject
  height : ℚ
  waveguide_height : ℚ
  waveguide_length : ℚ
  walls : List WallPair
deriving DecidableEq, Repr

/-- `Genotype.generate(self, num_wall_pairs, rand)`: uniform draws for
`height`, `waveguide_height`, `waveguide_length` from the config bounds, then
`WallPair().generate_list(num_wall_pairs, rand)` (which also consumes the
module-level stream). -/
def Genotype.generate (self : Genotype) (num_wall_pairs : ℕ) (rand : RandS)
    (globalRandom : RandS) : Except PyErr (Genotype × RandS × RandS) :=
  let (height, rand) := rand.uniform self.cfg.MIN_HEIGHT self.cfg.MAX_HEIGHT
  let (waveguide_height, rand) :=
    rand.uniform self.cfg.MIN_WAVEGUIDE_HEIGHT self.cfg.MAX_WAVEGUIDE_HEIGHT
  let (waveguide_length, rand) :=
    rand.uniform self.cfg.MIN_WAVEGUIDE_LENGTH self.cfg.MAX_WAVEGUIDE_LENGTH
  match WallPair.generate_list num_wall_pairs rand globalRandom with
  | .error e => .error e
  | .ok (walls, rand, g) =>
    .ok (⟨self.cfg, height, waveguide_height, waveguide_length, walls⟩, rand, g)

/-- The per-wall body of `Genotype._mutate_walls`: the six gene branches in
source order, each drawing its selection uniform and, when selected, a
Gaussian perturbation followed by the clamps.  Two source defects are
mirrored literally: the `"ridge_height"` branch clamps with `wp.MIN_HEIGHT` /
`wp.MAX_HEIGHT`, attributes the `WallPair` class does not define, so that
branch raises `AttributeError` right after the perturbation is stored; and
the `"ridge_thickness_bottom"` branch stores its upper clamp into
`wp.ridge_width_bottom` instead of `wp.ridge_thickness_bottom`. -/
def mutateWallPair (wp : WallPair) (per_site_mut_rate mut_effect_size : ℚ)
    (r : RandS) : Except PyErr (WallPair × RandS) :=
  -- gene "angle"
  let (u, r) := r.uniform 0 1
  let (wp, r) :=
    if per_site_mut_rate ≥ u then
      let (d, r) := r.gauss 0 mut_effect_size
      let a := wp.angle + d
      let a := max a WallPair.MIN_ANGLE
      let a := min a WallPair.MAX_ANGLE
      ({ wp with angle := a }, r)
    else (wp, r)
  -- gene "ridge_height"
  let (u, r) := r.uniform 0 1
  if per_site_mut_rate ≥ u then
    -- wp.ridge_height = wp.ridge_height + rand.gauss(0, mut_effect_size) succeeds;
    -- the following max(wp.ridge_height, wp.MIN_HEIGHT) raises AttributeError
    let (d, r) := r.gauss 0 mut_effect_size
    let _wp := { wp with ridge_height := wp.ridge_height + d }
    .error .attributeError
  else
  -- gene "ridge_width_top"
  let (u, r) := r.uniform 0 1
  let (wp, r) :=
    if per_site_mut_rate ≥ u then
      let (d, r) := r.gauss 0 mut_effect_size
      let v := wp.ridge_width_top + d
      let v := max v WallPair.MIN_RIDGE_WIDTH_TOP
      let v := min v WallPair.MAX_RIDGE_WIDTH_TOP
      ({ wp with ridge_width_top := v }, r)
    else (wp, r)
  -- gene "ridge_width_bottom"
  let (u, r) := r.uniform 0 1
  let (wp, r) :=
    if per_site_mut_rate ≥ u then
      let (d, r) := r.gauss 0 mut_effect_size
      let v := wp.ridge_width_bottom + d
      let v := max v WallPair.MIN_RIDGE_WIDTH_BOTTOM
      let v := min v WallPair.MAX_RIDGE_WIDTH_BOTTOM
      ({ wp with ridge_width_bottom := v }, r)
    else (wp, r)
  -- gene "ridge_thickness_top"
  let (u, r) := r.uniform 0 1
  let (wp, r) :=
    if per_site_mut_rate ≥ u then
      let (d, r) := r.gauss 0 mut_effect_size
      let v := wp.ridge_thickness_top + d
      let v := max v WallPair.MIN_RIDGE_THICKNESS_TOP
      let v := min v WallPair.MAX_RIDGE_THICKNESS_TOP
      ({ wp with ridge_thickness_top := v }, r)
    else (wp, r)
  -- gene "ridge_thickness_bottom"
  let (u, r) := r.uniform 0 1
  let (wp, r) :=
    if per_site_mut_rate ≥ u then
      let (d, r) := r.gauss 0 mut_effect_size
      let v := wp.ridge_thickness_bottom + d
      let v := max v WallPair.MIN_RIDGE_THICKNESS_BOTTOM
      -- source line: wp.ridge_width_bottom = min(wp.ridge_thickness_bottom, MAX...)
      ({ wp with ridge_thickness_bottom := v,
                 ridge_width_bottom := min v WallPair.MAX_RIDGE_THICKNESS_BOTTOM }, r)
    else (wp, r)
  .ok (wp, r)

/-- `Genotype._mutate_walls(self, walls, per_site_mut_rate, mut_effect_size,
rand)`: iterate over the wall pairs in order, mutating each in place. -/
def Genotype._mutate_walls :
    List WallPair → ℚ → ℚ → RandS → Except PyErr (List WallPair × RandS)
  | [], _, _, r => .ok ([], r)
  | wp :: rest, rate, size, r =>
    match mutateWallPair wp rate size r with
    | .error e => .error e
    | .ok (wp', r') =>
      match Genotype._mutate_walls rest rate size r' with
      | .error e => .error e
      | .ok (rest', r'') => .ok (wp' :: rest', r'')

/-- `Genotype.mutate(self, rand)` — the method takes only `rand`; the
mutation rate and effect size are read from `self.cfg`.  The three core genes
are visited in order (`height`, `waveguide_height`, `waveguide_length`), each
drawing a selection uniform and, when selected, Gaussian noise followed by
the min/max clamps; then `_mutate_walls` runs on the wall list. -/
def Genotype.mutate (self : Genotype) (rand : RandS) :
    Except PyErr (Genotype × RandS) :=
  let per_site_mut_rate := self.cfg.per_site_mut_rate
  let mut_effect_size := self.cfg.mut_effect_size
  -- gene "height"
  let (u, rand) := rand.uniform 0 1
  let (self, rand) :=
    if per_site_mut_rate ≥ u then
      let (d, rand) := rand.gauss 0 mut_effect_size
      let h := self.height + d
      let h := max h self.cfg.MIN_HEIGHT
      let h := min h self.cfg.MAX_HEIGHT
      ({ self with height := h }, rand)
    else (self, rand)
  -- gene "waveguide_height"
  let (u, rand) := rand.uniform 0 1
  let (self, rand) :=
    if per_site_mut_rate ≥ u then
      let (d, rand) := rand.gauss 0 mut_effect_size
      let h := self.waveguide_height + d
      let h := max h self.cfg.MIN_WAVEGUIDE_HEIGHT
      let h := min h self.cfg.MAX_WAVEGUIDE_HEIGHT
      ({ self with waveguide_height := h }, rand)
    else (self, rand)
  -- gene "waveguide_length"
  let (u, rand) := rand.uniform 0 1
  let (self, rand) :=
    if per_site_mut_rate ≥ u then
      let (d, rand) := rand.gauss 0 mut_effect_size
      let h := self.waveguide_length + d
      let h := max h self.cfg.MIN_WAVEGUIDE_LENGTH
      let h := min h self.cfg.MAX_WAVEGUIDE_LENGTH
      ({ self with waveguide_length := h }, rand)
    else (self, rand)
  match Genotype._mutate_walls self.walls per_site_mut_rate mut_effect_size rand with
  | .error e => .error e
  | .ok (walls, rand) => .ok ({ self with walls := walls }, rand)

/-- A `Phenotype` from `src/Phenotype.py`. -/
structure Phenotype where
  genotype : Genotype
  indv_id : ℕ
  parent_id : Option ℕ
  generation_created : ℕ
  fitness_score : Option ℚ := none
deriving DecidableEq, Repr

/-- `Phenotype.make_offspring(self, new_id, per_site_mut_rate,
mut_effect_size, rand)`: `copy.deepcopy(self)` (a value copy here), set the
copy's `parent_id` to the caller's `indv_id` and its `indv_id` to `new_id`,
then call `offspring.genotype.mutate(per_site_mut_rate, mut_effect_size,
rand)`.  `Genotype.mutate` accepts only `(self, rand)`, so this
three-argument call raises `TypeError` and the method never returns an
offspring. -/
def Phenotype.make_offspring (self : Phenotype) (new_id : ℕ)
    (per_site_mut_rate mut_effect_size : ℚ) (rand : RandS) :
    Except PyErr Phenotype :=
  let offspring := self
  let _offspring := { offspring with parent_id := some self.indv_id, indv_id := new_id }
  .error .typeError

/-- The fronts of `fast_non_dominated_sort` as lists of the population's
individual objects (what the Python lists hold). -/
def frontsOf (pop : List Individual) (fronts : List (List ℕ)) :
    List (List Individual) :=
  fronts.map fun f => f.map fun i => pop.getD i default

/-- `NSGA2.evolve(self, population, generation_num, rand)` from
`src/Evolver.py`.  Step 1 (rank and crowding assignment) runs; the offspring
loop's first iteration then evaluates
`NSGATournament.select_one(population, rand)`.  `select_one` is an instance
method invoked here on the class with only two arguments, so for every
non-empty population that call raises `TypeError` (argument `rand` missing)
before any sampling, and `evolve` never reaches the combine / truncate steps.
For an empty population the `range(0)` loop body never runs and the empty
population is returned. -/
def NSGA2.evolve (population : List Individual) (generation_num : ℕ)
    (rand : RandS) : Except PyErr (List Individual × RandS) :=
  let pop_size := population.length
  let fronts := (fast_non_dominated_sort population).1
  let _distFronts := (frontsOf population fronts).map crowding_distance_assignment
  if pop_size = 0 then .ok ([], rand)
  else .error .typeError

/-! ## Concrete inputs used by the claim theorems and witnesses -/

/-- In-range config: mutation rate `1/2`, effect size `1`, height in `[1,3]`,
waveguide bounds as in `src/Genotype.py`'s constants. -/
def cfgTest : ParametersObject := ⟨1/2, 1, 1, 3, 200, 1000, 100, 1000⟩

/-- A wall pair with every bounded field inside its declared interval and
`ridge_thickness_bottom` at its maximum (100). -/
def wallTest : WallPair := ⟨true, 45, 50, 50, 50, 50, 100⟩

/-- A genotype with every bounded field inside its declared interval. -/
def genoTest : Genotype := ⟨cfgTest, 2, 500, 500, [wallTest]⟩

/-- A generator state whose selection uniforms (in `[0,1)`) skip every gene
except `ridge_thickness_bottom` of the single wall (draw 8), and whose
Gaussian draw (standard normal value 10) pushes that gene up by
`10 * mut_effect_size`. -/
def randTest : RandS := ⟨fun _ => 0, fun k => if k = 8 then 0 else 99/100, fun _ => 10, 0⟩

/-- A generator state with all `random()` draws equal to `1/2` (so every
uniform lands strictly inside its interval and all rejection loops exit at
once). -/
def randGen : RandS := ⟨fun _ => 0, fun _ => 1/2, fun _ => 0, 0⟩

/-- One possible module-level `random` state: its next `randint(0,1)` is 0. -/
def globalA : RandS := ⟨fun _ => 0, fun _ => 1/2, fun _ => 0, 0⟩

/-- Another possible module-level `random` state: its next `randint(0,1)`
is 1. -/
def globalB : RandS := ⟨fun _ => 1, fun _ => 1/2, fun _ => 0, 0⟩

/-- A two-individual fitness-scored population sharing one objective
key-set. -/
def popTwo : List Individual := [⟨1, [1, 2], 0, 0⟩, ⟨2, [2, 1], 0, 0⟩]

/-- A phenotype wrapping an in-range genotype. -/
def phenoTest : Phenotype := ⟨genoTest, 3, none, 0, none⟩

/-! ## C5: the seven-individual sorting scenario -/

/-- C5: on the population with scores {10,20,30}, {20,10,30}, {30,20,10},
{100,200,300}, {200,100,300}, {999,999,999}, {15,15,25},
`fast_non_dominated_sort` returns exactly three fronts: positions 0,1,2,6
(ids 1,2,3,7) in front 0, positions 3,4 (ids 4,5) in front 1, and position 5
(id 6) alone in front 2. -/
theorem fast_non_dominated_sort_scenario_seven :
    (fast_non_dominated_sort popSeven).1 = [[0, 1, 2, 6], [3, 4], [5]] ∧
    (fast_non_dominated_sort popSeven).1.map
      (fun f => f.map fun i => (popSeven.getD i default).id) =
      [[1, 2, 3, 7], [4, 5], [6]] :=
  ⟨by decide, by decide⟩

/-! ## C9: dominance is antisymmetric -/

/-- C9: for two individuals sharing one objective key-set, `dominates(p, q)`
and `dominates(q, p)` are never both true. -/
theorem dominates_antisymmetric (p q : Individual)
    (h : p.fitness.length = q.fitness.length) :
    ¬(dominates p q = true ∧ dominates q p = true) :=
  fun hc => dominates_asymm p q hc.1 hc.2

/-- Witness for C9 at the first two individuals of the test population. -/
theorem dominates_antisymmetric_witness :
    (popSeven.getD 0 default).fitness.length =
      (popSeven.getD 1 default).fitness.length ∧
    ¬(dominates (popSeven.getD 0 default) (popSeven.getD 1 default) = true ∧
      dominates (popSeven.getD 1 default) (popSeven.getD 0 default) = true) :=
  ⟨by decide, dominates_antisymmetric (popSeven.getD 0 default)
    (popSeven.getD 1 default) (by decide)⟩

/-! ## C3: WallPair construction -/

/-- C3 (counterexample): constructing a `WallPair` whose ridge dimensions are
all negative succeeds without raising anything — there is no
ConstructionError path in `WallPair.__init__` — and yields an ordinary wall
pair storing the non-positive dimensions unchanged, with `has_ridge`
initialized to `False`.  (The constructor does not even accept a
ridge-presence request.) -/
theorem wallPair_init_accepts_nonpositive_ridge :
    WallPair.init 1 (-1) (-1) (-1) (-1) (-1) =
      .ok ⟨false, 1, -1, -1, -1, -1, -1⟩ := rfl

/-- C3 (amended): `WallPair.__init__` performs no validation: for every
choice of the six dimension values, including non-positive ridge dimensions,
construction succeeds without raising, and the constructed wall pair always
has `has_ridge = false` — so no constructor call ever produces a wall pair
with `has_ridge` true, in particular none with `has_ridge` true and a
non-positive ridge dimension. -/
theorem wallPair_init_never_raises (angle rh rwt rwb rtt rtb : ℚ) :
    WallPair.init angle rh rwt rwb rtt rtb =
      .ok ⟨false, angle, rh, rwt, rwb, rtt, rtb⟩ := rfl

/-! ## C2: mutation bound-safety -/

/-- C2 (failing evaluation): with mutation rate `1/2 ∈ [0,1]`, effect size
`1 > 0`, all `random()` draws in `[0,1)`, and every bounded field initially
inside its declared interval (`ridge_thickness_bottom` at its maximum 100),
`Genotype.mutate` selects only the wall's `ridge_thickness_bottom` gene and
leaves it at `110 > 100`: the branch stores `max(v, MIN)` into
`ridge_thickness_bottom` but writes the `min(·, MAX)` clamp into
`ridge_width_bottom` (which is silently overwritten to 100). -/
theorem mutate_exceeds_ridge_thickness_bound :
    (0 ≤ cfgTest.per_site_mut_rate ∧ cfgTest.per_site_mut_rate ≤ 1 ∧
      0 < cfgTest.mut_effect_size) ∧
    (∀ k, 0 ≤ randTest.unifs k ∧ randTest.unifs k < 1) ∧
    (WallPair.MIN_RIDGE_THICKNESS_BOTTOM ≤ wallTest.ridge_thickness_bottom ∧
      wallTest.ridge_thickness_bottom ≤ WallPair.MAX_RIDGE_THICKNESS_BOTTOM ∧
      wallTest.ridge_width_bottom = 50) ∧
    ∃ g' r', Genotype.mutate genoTest randTest = .ok (g', r') ∧
      (g'.walls.getD 0 default).ridge_thickness_bottom = 110 ∧
      WallPair.MAX_RIDGE_THICKNESS_BOTTOM <
        (g'.walls.getD 0 default).ridge_thickness_bottom ∧
      (g'.walls.getD 0 default).ridge_width_bottom = 100 := by
  refine ⟨by decide, fun k => ?_, by decide, _, _, rfl, by decide, by decide, by decide⟩
  by_cases h : k = 8
  · simp [randTest, h]
  · simp [randTest, h]
    norm_num

/-! ## C4: single-stream randomness -/

/-- C4 (failing evaluation): `WallPair.generate_list` flips the ridge coin on
the module-level `random`, not on the passed `rand`.  Two runs with the same
`rand` state (`randGen`) but different ambient global states produce
different wall pairs: one without and one with a ridge. -/
theorem generate_list_depends_on_global_random :
    ∃ (wA wB : WallPair) (rA rB gA gB : RandS),
      WallPair.generate_list 1 randGen globalA = .ok ([wA], rA, gA) ∧
      WallPair.generate_list 1 randGen globalB = .ok ([wB], rB, gB) ∧
      wA.has_ridge = false ∧ wB.has_ridge = true ∧ wA ≠ wB :=
  ⟨_, _, _, _, _, _, rfl, rfl, rfl, rfl, by decide⟩

/-! ## C1: NSGA2.evolve -/

/-- C1 (failing evaluation): for every non-empty population, generation index
and generator state, `NSGA2.evolve` raises `TypeError` at the first offspring
iteration (`NSGATournament.select_one(population, rand)` is an instance
method called on the class with two arguments) and returns no population at
all. -/
theorem evolve_raises_typeError (population : List Individual)
    (generation_num : ℕ) (rand : RandS) (h : population.length ≠ 0) :
    NSGA2.evolve population generation_num rand = .error .typeError := by
  simp [NSGA2.evolve, h]

/-- Witness for C1 on a two-individual fitness-scored population. -/
theorem evolve_raises_typeError_witness :
    popTwo.length ≠ 0 ∧
    NSGA2.evolve popTwo 1 randGen = .error .typeError :=
  ⟨by decide, evolve_raises_typeError popTwo 1 randGen (by decide)⟩

/-! ## C8: Phenotype.make_offspring -/

/-- C8 (failing evaluation): `Phenotype.make_offspring` raises `TypeError`
for every input: after the deep copy and the identifier assignments it calls
`offspring.genotype.mutate(per_site_mut_rate, mut_effect_size, rand)`, but
`Genotype.mutate` accepts only `(self, rand)`, so no offspring is ever
returned. -/
theorem make_offspring_raises_typeError (self : Phenotype) (new_id : ℕ)
    (per_site_mut_rate mut_effect_size : ℚ) (rand : RandS) :
    Phenotype.make_offspring self new_id per_site_mut_rate mut_effect_size rand =
      .error .typeError := rfl

/-! ## C7: NSGATournament.select_one -/

/-- Reduce `select_one` to its comparison cascade once the sample is known. -/
theorem select_one_eq (pool : List Individual) (r : RandS) (i1 i2 : Individual)
    (r1 : RandS) (hs : sampleTwo pool r = .ok ((i1, i2), r1)) :
    NSGATournament.select_one pool r =
      (if i1.nsgaii_rank < i2.nsgaii_rank then .ok (i1, r1)
       else if i2.nsgaii_rank < i1.nsgaii_rank then .ok (i2, r1)
       else if i1.nsgaii_distance > i2.nsgaii_distance then .ok (i1, r1)
       else if i2.nsgaii_distance > i1.nsgaii_distance then .ok (i2, r1)
       else .ok (if r1.ints r1.k % 2 = 0 then i1 else i2,
         { r1 with k := r1.k + 1 })) := by
  unfold NSGATournament.select_one
  rw [hs]

/-- What C7 asserts of one `select_one` call: two individuals at distinct
positions are sampled without replacement, the result is one of those two,
lower rank wins outright, on equal ranks the strictly larger crowding
distance wins, and in a full tie the result is the `rand.choice` pick among
exactly those two. -/
def selectOneClaim (pool : List Individual) (r : RandS) : Prop :=
  ∃ (a b : ℕ) (i1 i2 : Individual) (r1 : RandS) (res : Individual) (r2 : RandS),
    a < pool.length ∧ b < pool.length ∧ a ≠ b ∧
    i1 = pool.getD a default ∧ i2 = pool.getD b default ∧
    sampleTwo pool r = .ok ((i1, i2), r1) ∧
    NSGATournament.select_one pool r = .ok (res, r2) ∧
    (res = i1 ∨ res = i2) ∧
    (i1.nsgaii_rank < i2.nsgaii_rank → res = i1) ∧
    (i2.nsgaii_rank < i1.nsgaii_rank → res = i2) ∧
    (i1.nsgaii_rank = i2.nsgaii_rank →
      i2.nsgaii_distance < i1.nsgaii_distance → res = i1) ∧
    (i1.nsgaii_rank = i2.nsgaii_rank →
      i1.nsgaii_distance < i2.nsgaii_distance → res = i2)

/-- C7: on every pool of at least two individuals, `select_one` draws exactly
two distinct individuals from the pool and returns one of those two, by the
rank / distance / random-choice cascade. -/
theorem select_one_spec (pool : List Individual) (r : RandS)
    (h2 : 2 ≤ pool.length) : selectOneClaim pool r := by
  have hn : ¬ pool.length < 2 := not_lt.mpr h2
  have h0 : 0 < pool.length := by omega
  have h1 : 0 < pool.length - 1 := by omega
  set a := r.ints r.k % pool.length with ha
  set t := r.ints (r.k + 1) % (pool.length - 1) with ht
  set b := (if t < a then t else t + 1) with hb
  have hta : t < pool.length - 1 := Nat.mod_lt _ h1
  have haL : a < pool.length := Nat.mod_lt _ h0
  have hbL : b < pool.length := by rw [hb]; split <;> omega
  have hab : a ≠ b := by rw [hb]; split <;> omega
  have hsample : sampleTwo pool r =
      .ok ((pool.getD a default, pool.getD b default), { r with k := r.k + 2 }) := by
    unfold sampleTwo
    simp only [if_neg hn]
  set i1 := pool.getD a default with hi1
  set i2 := pool.getD b default with hi2
  have hsel := select_one_eq pool r i1 i2 { r with k := r.k + 2 } hsample
  by_cases hr1 : i1.nsgaii_rank < i2.nsgaii_rank
  · rw [if_pos hr1] at hsel
    exact ⟨a, b, i1, i2, _, i1, _, haL, hbL, hab, rfl, rfl, hsample, hsel,
      Or.inl rfl, fun _ => rfl, fun h => absurd h (by omega),
      fun h _ => absurd h (by omega), fun h _ => absurd h (by omega)⟩
  · rw [if_neg hr1] at hsel
    by_cases hr2 : i2.nsgaii_rank < i1.nsgaii_rank
    · rw [if_pos hr2] at hsel
      exact ⟨a, b, i1, i2, _, i2, _, haL, hbL, hab, rfl, rfl, hsample, hsel,
        Or.inr rfl, fun h => absurd h (by omega), fun _ => rfl,
        fun h _ => absurd h (by omega), fun h _ => absurd h (by omega)⟩
    · rw [if_neg hr2] at hsel
      by_cases hd1 : i1.nsgaii_distance > i2.nsgaii_distance
      · rw [if_pos hd1] at hsel
        exact ⟨a, b, i1, i2, _, i1, _, haL, hbL, hab, rfl, rfl, hsample, hsel,
          Or.inl rfl, fun h => absurd h (by omega), fun h => absurd h (by omega),
          fun _ _ => rfl, fun _ h => absurd h (not_lt.mpr (le_of_lt hd1))⟩
      · rw [if_neg hd1] at hsel
        by_cases hd2 : i2.nsgaii_distance > i1.nsgaii_distance
        · rw [if_pos hd2] at hsel
          exact ⟨a, b, i1, i2, _, i2, _, haL, hbL, hab, rfl, rfl, hsample, hsel,
            Or.inr rfl, fun h => absurd h (by omega), fun h => absurd h (by omega),
            fun _ h => absurd h (not_lt.mpr (le_of_lt hd2)), fun _ _ => rfl⟩
        · rw [if_neg hd2] at hsel
          refine ⟨a, b, i1, i2, _, _, _, haL, hbL, hab, rfl, rfl, hsample, hsel,
            ?_, fun h => absurd h (by omega), fun h => absurd h (by omega),
            fun _ h => absurd h hd1, fun _ h => absurd h hd2⟩
          split <;> [exact Or.inl rfl; exact Or.inr rfl]

/-- Pool for the C7 witness: two individuals with distinct ranks. -/
def poolW : List Individual := [⟨1, [1], 0, 0⟩, ⟨2, [2], 1, 0⟩]

/-- Witness for C7 at a concrete two-individual pool. -/
theorem select_one_spec_witness :
    2 ≤ poolW.length ∧ selectOneClaim poolW randGen :=
  ⟨by decide, select_one_spec poolW randGen (by decide)⟩

/-! ## C6: crowding-distance assignment — helper lemmas -/

theorem Individual.eta_top (x : Individual) (h : x.nsgaii_distance = ⊤) :
    { x with nsgaii_distance := (⊤ : WithTop ℚ) } = x := by
  cases x with
  | mk i f r d => simp_all

theorem cdaUpd_fitness (s : List Individual) (obj : ℕ) (fmin fmax : ℚ)
    (i : ℕ) (x : Individual) :
    (cdaUpd s obj fmin fmax i x).fitness = x.fitness := by
  unfold cdaUpd
  split
  · rfl
  · split
    · rfl
    · rfl

theorem cdaUpd_top_fix (s : List Individual) (obj : ℕ) (fmin fmax : ℚ)
    (i : ℕ) (x : Individual) (h : x.nsgaii_distance = ⊤) :
    cdaUpd s obj fmin fmax i x = x := by
  unfold cdaUpd
  split
  · exact Individual.eta_top x h
  · simp [h]

theorem idxMap_length (f : ℕ → Individual → Individual) :
    ∀ (i : ℕ) (s : List Individual), (idxMap f i s).length = s.length
  | _, [] => rfl
  | i, x :: xs => by
    simp only [idxMap, List.length_cons, idxMap_length f (i + 1) xs]

theorem idxMap_map_fitness (f : ℕ → Individual → Individual)
    (hf : ∀ i x, (f i x).fitness = x.fitness) :
    ∀ (i : ℕ) (s : List Individual),
      (idxMap f i s).map Individual.fitness = s.map Individual.fitness
  | _, [] => rfl
  | i, x :: xs => by
    simp only [idxMap, List.map_cons, hf, idxMap_map_fitness f hf (i + 1) xs]

theorem mem_idxMap_self (f : ℕ → Individual → Individual) (x : Individual)
    (hfix : ∀ i, f i x = x) :
    ∀ (i : ℕ) (s : List Individual), x ∈ s → x ∈ idxMap f i s
  | i, y :: ys, hmem => by
    rcases List.mem_cons.mp hmem with h | h
    · subst h
      simp [idxMap, hfix i]
    · exact List.mem_cons_of_mem _ (mem_idxMap_self f x hfix (i + 1) ys h)

theorem idxMap_getElem (f : ℕ → Individual → Individual) :
    ∀ (i : ℕ) (s : List Individual) (j : ℕ) (h1 : j < (idxMap f i s).length)
      (h2 : j < s.length), (idxMap f i s)[j] = f (i + j) s[j]
  | i, y :: ys, 0, _, _ => by simp [idxMap]
  | i, y :: ys, j + 1, h1, h2 => by
    have h1' : j < (idxMap f (i + 1) ys).length := by
      rw [idxMap_length]
      simpa using h2
    have h2' : j < ys.length := by simpa using h2
    simp only [idxMap, List.getElem_cons_succ]
    rw [idxMap_getElem f (i + 1) ys j h1' h2']
    rw [Nat.add_assoc, Nat.add_comm 1 j]

theorem byObjLe_trans (obj : ℕ) (a b c : Individual)
    (h1 : byObjLe obj a b = true) (h2 : byObjLe obj b c = true) :
    byObjLe obj a c = true := by
  simp only [byObjLe, decide_eq_true_eq] at h1 h2 ⊢
  exact le_trans h1 h2

theorem byObjLe_total (obj : ℕ) (a b : Individual) :
    (byObjLe obj a b || byObjLe obj b a) = true := by
  simp only [byObjLe, Bool.or_eq_true, decide_eq_true_eq]
  exact le_total _ _

theorem sorted_byObj (l : List Individual) (obj : ℕ) :
    List.Pairwise (fun a b => byObjLe obj a b = true) (l.mergeSort (byObjLe obj)) :=
  List.sorted_mergeSort (byObjLe_trans obj) (byObjLe_total obj) l

theorem pairwise_head_le (obj : ℕ) (x : Individual) (t : List Individual)
    (hp : List.Pairwise (fun a b => byObjLe obj a b = true) (x :: t))
    (y : Individual) (hy : y ∈ x :: t) : fitObj x obj ≤ fitObj y obj := by
  rcases List.mem_cons.mp hy with h | h
  · subst h
    exact le_refl _
  · have := List.rel_of_pairwise_cons hp h
    simpa [byObjLe] using this

theorem pairwise_le_getLast (obj : ℕ) :
    ∀ (s : List Individual) (hne : s ≠ [])
      (hp : List.Pairwise (fun a b => byObjLe obj a b = true) s)
      (y : Individual), y ∈ s → fitObj y obj ≤ fitObj (s.getLast hne) obj
  | [x], _, _, y, hy => by
    simp only [List.mem_singleton] at hy
    subst hy
    simp [List.getLast]
  | x :: z :: t, _, hp, y, hy => by
    rw [List.getLast_cons (List.cons_ne_nil z t)]
    rcases List.mem_cons.mp hy with h | h
    · subst h
      have hlast : (z :: t).getLast (List.cons_ne_nil z t) ∈ z :: t :=
        List.getLast_mem _
      have := List.rel_of_pairwise_cons hp hlast
      simpa [byObjLe] using this
    · exact pairwise_le_getLast obj (z :: t) (List.cons_ne_nil z t) hp.of_cons y h

theorem cdaPass_eq (l : List Individual) (obj : ℕ) (x : Individual)
    (rest : List Individual) (hs : l.mergeSort (byObjLe obj) = x :: rest) :
    cdaPass l obj =
      (if fitObj x obj = fitObj ((x :: rest).getLast (List.cons_ne_nil x rest)) obj
       then x :: rest
       else idxMap (cdaUpd (x :: rest) obj (fitObj x obj)
         (fitObj ((x :: rest).getLast (List.cons_ne_nil x rest)) obj)) 0 (x :: rest)) := by
  unfold cdaPass
  rw [hs]

theorem mergeSort_nil_imp (l : List Individual) (obj : ℕ)
    (hs : l.mergeSort (byObjLe obj) = []) : l = [] := by
  have := congrArg List.length hs
  rw [List.length_mergeSort] at this
  exact List.length_eq_zero.mp this

theorem cdaPass_length (l : List Individual) (obj : ℕ) :
    (cdaPass l obj).length = l.length := by
  cases hs : l.mergeSort (byObjLe obj) with
  | nil =>
    have h0 := mergeSort_nil_imp l obj hs
    subst h0
    simp [cdaPass, hs]
  | cons x rest =>
    have hlen : (x :: rest).length = l.length := by
      rw [← hs, List.length_mergeSort]
    rw [cdaPass_eq l obj x rest hs]
    split
    · exact hlen
    · rw [idxMap_length]
      exact hlen

theorem cdaPass_map_fitness (l : List Individual) (obj : ℕ) :
    ((cdaPass l obj).map Individual.fitness).Perm (l.map Individual.fitness) := by
  cases hs : l.mergeSort (byObjLe obj) with
  | nil =>
    have h0 := mergeSort_nil_imp l obj hs
    subst h0
    simp [cdaPass, hs]
  | cons x rest =>
    have hperm : ((x :: rest).map Individual.fitness).Perm (l.map Individual.fitness) := by
      have := (List.mergeSort_perm l (byObjLe obj)).map Individual.fitness
      rwa [hs] at this
    rw [cdaPass_eq l obj x rest hs]
    split
    · exact hperm
    · rw [idxMap_map_fitness]
      · exact hperm
      · intro i y
        exact cdaUpd_fitness _ _ _ _ _ _

theorem cdaPass_map_vals (l : List Individual) (obj obj' : ℕ) :
    ((cdaPass l obj).map (fun y => fitObj y obj')).Perm
      (l.map (fun y => fitObj y obj')) := by
  have := (cdaPass_map_fitness l obj).map (fun fl => fl.getD obj' 0)
  simpa [List.map_map, Function.comp_def, fitObj] using this

theorem cdaPass_mem_top (l : List Individual) (obj : ℕ) (x : Individual)
    (hx : x ∈ l) (hd : x.nsgaii_distance = ⊤) : x ∈ cdaPass l obj := by
  have hxs : x ∈ l.mergeSort (byObjLe obj) :=
    (List.mergeSort_perm l (byObjLe obj)).mem_iff.mpr hx
  cases hs : l.mergeSort (byObjLe obj) with
  | nil =>
    rw [hs] at hxs
    cases hxs
  | cons y rest =>
    rw [hs] at hxs
    rw [cdaPass_eq l obj y rest hs]
    split
    · exact hxs
    · exact mem_idxMap_self _ x (fun i => cdaUpd_top_fix _ _ _ _ i x hd) 0 _ hxs

theorem fitObj_update_dist (x : Individual) (d : WithTop ℚ) (obj : ℕ) :
    fitObj { x with nsgaii_distance := d } obj = fitObj x obj := rfl

theorem cdaPass_min_top (l : List Individual) (obj : ℕ)
    (hvar : ∃ x ∈ l, ∃ y ∈ l, fitObj x obj ≠ fitObj y obj) :
    ∃ x ∈ cdaPass l obj, x.nsgaii_distance = ⊤ ∧
      ∀ y ∈ l, fitObj x obj ≤ fitObj y obj := by
  obtain ⟨u, hu, v, hv, huv⟩ := hvar
  cases hs : l.mergeSort (byObjLe obj) with
  | nil =>
    have h0 := mergeSort_nil_imp l obj hs
    subst h0
    cases hu
  | cons x rest =>
    have hsorted := sorted_byObj l obj
    rw [hs] at hsorted
    have hmemiff : ∀ z : Individual, z ∈ l ↔ z ∈ x :: rest := by
      intro z
      rw [← hs]
      exact ((List.mergeSort_perm l (byObjLe obj)).mem_iff).symm
    have hmin : ∀ y ∈ x :: rest, fitObj x obj ≤ fitObj y obj :=
      pairwise_head_le obj x rest hsorted
    have hmax : ∀ y ∈ x :: rest,
        fitObj y obj ≤ fitObj ((x :: rest).getLast (List.cons_ne_nil x rest)) obj :=
      pairwise_le_getLast obj (x :: rest) (List.cons_ne_nil x rest) hsorted
    have hne : fitObj x obj ≠
        fitObj ((x :: rest).getLast (List.cons_ne_nil x rest)) obj := by
      intro he
      apply huv
      have hu' : u ∈ x :: rest := (hmemiff u).mp hu
      have hv' : v ∈ x :: rest := (hmemiff v).mp hv
      have h1 : fitObj u obj = fitObj x obj :=
        le_antisymm (he ▸ hmax u hu') (hmin u hu')
      have h2 : fitObj v obj = fitObj x obj :=
        le_antisymm (he ▸ hmax v hv') (hmin v hv')
      rw [h1, h2]
    rw [cdaPass_eq l obj x rest hs, if_neg hne]
    refine ⟨{ x with nsgaii_distance := ⊤ }, ?_, rfl, ?_⟩
    · have : idxMap (cdaUpd (x :: rest) obj (fitObj x obj)
          (fitObj ((x :: rest).getLast (List.cons_ne_nil x rest)) obj)) 0 (x :: rest) =
          cdaUpd (x :: rest) obj (fitObj x obj)
            (fitObj ((x :: rest).getLast (List.cons_ne_nil x rest)) obj) 0 x ::
          idxMap (cdaUpd (x :: rest) obj (fitObj x obj)
            (fitObj ((x :: rest).getLast (List.cons_ne_nil x rest)) obj)) 1 rest := rfl
      rw [this]
      have hupd : cdaUpd (x :: rest) obj (fitObj x obj)
          (fitObj ((x :: rest).getLast (List.cons_ne_nil x rest)) obj) 0 x =
          { x with nsgaii_distance := ⊤ } := by
        unfold cdaUpd
        rw [if_pos (Or.inl rfl)]
      rw [hupd]
      exact List.mem_cons_self _ _
    · intro y hy
      rw [fitObj_update_dist]
      exact hmin y ((hmemiff y).mp hy)

theorem cdaPass_max_top (l : List Individual) (obj : ℕ)
    (hvar : ∃ x ∈ l, ∃ y ∈ l, fitObj x obj ≠ fitObj y obj) :
    ∃ x ∈ cdaPass l obj, x.nsgaii_distance = ⊤ ∧
      ∀ y ∈ l, fitObj y obj ≤ fitObj x obj := by
  obtain ⟨u, hu, v, hv, huv⟩ := hvar
  cases hs : l.mergeSort (byObjLe obj) with
  | nil =>
    have h0 := mergeSort_nil_imp l obj hs
    subst h0
    cases hu
  | cons x rest =>
    have hsorted := sorted_byObj l obj
    rw [hs] at hsorted
    have hmemiff : ∀ z : Individual, z ∈ l ↔ z ∈ x :: rest := by
      intro z
      rw [← hs]
      exact ((List.mergeSort_perm l (byObjLe obj)).mem_iff).symm
    have hmin : ∀ y ∈ x :: rest, fitObj x obj ≤ fitObj y obj :=
      pairwise_head_le obj x rest hsorted
    have hmax : ∀ y ∈ x :: rest,
        fitObj y obj ≤ fitObj ((x :: rest).getLast (List.cons_ne_nil x rest)) obj :=
      pairwise_le_getLast obj (x :: rest) (List.cons_ne_nil x rest) hsorted
    have hne : fitObj x obj ≠
        fitObj ((x :: rest).getLast (List.cons_ne_nil x rest)) obj := by
      intro he
      apply huv
      have hu' : u ∈ x :: rest := (hmemiff u).mp hu
      have hv' : v ∈ x :: rest := (hmemiff v).mp hv
      have h1 : fitObj u obj = fitObj x obj :=
        le_antisymm (he ▸ hmax u hu') (hmin u hu')
      have h2 : fitObj v obj = fitObj x obj :=
        le_antisymm (he ▸ hmax v hv') (hmin v hv')
      rw [h1, h2]
    rw [cdaPass_eq l obj x rest hs, if_neg hne]
    set s := x :: rest with hsdef
    set g := (s.getLast (List.cons_ne_nil x rest)) with hg
    set f := cdaUpd s obj (fitObj x obj) (fitObj g obj) with hf
    have hlen : s.length - 1 < s.length := by
      simp [hsdef]
    have hlen1 : s.length - 1 < (idxMap f 0 s).length := by
      rw [idxMap_length]
      exact hlen
    have hget : (idxMap f 0 s)[s.length - 1] = f (0 + (s.length - 1)) s[s.length - 1] :=
      idxMap_getElem f 0 s (s.length - 1) hlen1 hlen
    have hlastget : s[s.length - 1] = g := by
      rw [hg, List.getLast_eq_getElem]
    have hffix : f (0 + (s.length - 1)) g = { g with nsgaii_distance := ⊤ } := by
      rw [hf]
      unfold cdaUpd
      rw [if_pos (Or.inr (by omega))]
    refine ⟨{ g with nsgaii_distance := ⊤ }, ?_, rfl, ?_⟩
    · have : { g with nsgaii_distance := (⊤ : WithTop ℚ) } ∈ idxMap f 0 s := by
        rw [← hffix, ← hlastget, ← hget]
        exact List.getElem_mem hlen1
      exact this
    · intro y hy
      rw [fitObj_update_dist]
      exact hmax y ((hmemiff y).mp hy)

theorem foldl_cdaPass_length :
    ∀ (objs : List ℕ) (l : List Individual),
      (objs.foldl cdaPass l).length = l.length
  | [], l => rfl
  | o :: os, l => by
    simp only [List.foldl_cons]
    rw [foldl_cdaPass_length os (cdaPass l o), cdaPass_length]

theorem foldl_cdaPass_map_fitness :
    ∀ (objs : List ℕ) (l : List Individual),
      ((objs.foldl cdaPass l).map Individual.fitness).Perm
        (l.map Individual.fitness)
  | [], l => List.Perm.refl _
  | o :: os, l => by
    simp only [List.foldl_cons]
    exact (foldl_cdaPass_map_fitness os (cdaPass l o)).trans
      (cdaPass_map_fitness l o)

theorem foldl_cdaPass_map_vals (objs : List ℕ) (l : List Individual)
    (obj' : ℕ) :
    ((objs.foldl cdaPass l).map (fun y => fitObj y obj')).Perm
      (l.map (fun y => fitObj y obj')) := by
  have := (foldl_cdaPass_map_fitness objs l).map (fun fl => fl.getD obj' 0)
  simpa [List.map_map, Function.comp_def, fitObj] using this

theorem foldl_cdaPass_mem_top :
    ∀ (objs : List ℕ) (l : List Individual) (x : Individual),
      x ∈ l → x.nsgaii_distance = ⊤ → x ∈ objs.foldl cdaPass l
  | [], _, _, hx, _ => hx
  | o :: os, l, x, hx, hd => by
    simp only [List.foldl_cons]
    exact foldl_cdaPass_mem_top os (cdaPass l o) x
      (cdaPass_mem_top l o x hx hd) hd

theorem exists_var_of_perm (obj : ℕ) (A B : List Individual)
    (hperm : (A.map (fun y => fitObj y obj)).Perm
      (B.map (fun y => fitObj y obj)))
    (hvar : ∃ x ∈ B, ∃ y ∈ B, fitObj x obj ≠ fitObj y obj) :
    ∃ x ∈ A, ∃ y ∈ A, fitObj x obj ≠ fitObj y obj := by
  obtain ⟨u, hu, v, hv, huv⟩ := hvar
  have hu2 : fitObj u obj ∈ A.map (fun y => fitObj y obj) :=
    hperm.mem_iff.mpr (List.mem_map_of_mem _ hu)
  have hv2 : fitObj v obj ∈ A.map (fun y => fitObj y obj) :=
    hperm.mem_iff.mpr (List.mem_map_of_mem _ hv)
  obtain ⟨u2, hu2m, hueq⟩ := List.mem_map.mp hu2
  obtain ⟨v2, hv2m, hveq⟩ := List.mem_map.mp hv2
  refine ⟨u2, hu2m, v2, hv2m, ?_⟩
  rw [hueq, hveq]
  exact huv

theorem all_le_of_perm (obj : ℕ) (c : ℚ) (A B : List Individual)
    (hperm : (A.map (fun y => fitObj y obj)).Perm
      (B.map (fun y => fitObj y obj)))
    (h : ∀ y ∈ B, c ≤ fitObj y obj) : ∀ y ∈ A, c ≤ fitObj y obj := by
  intro y hy
  have hmem : fitObj y obj ∈ B.map (fun y => fitObj y obj) :=
    hperm.mem_iff.mp (List.mem_map_of_mem _ hy)
  obtain ⟨z, hz, hzeq⟩ := List.mem_map.mp hmem
  rw [← hzeq]
  exact h z hz

theorem all_ge_of_perm (obj : ℕ) (c : ℚ) (A B : List Individual)
    (hperm : (A.map (fun y => fitObj y obj)).Perm
      (B.map (fun y => fitObj y obj)))
    (h : ∀ y ∈ B, fitObj y obj ≤ c) : ∀ y ∈ A, fitObj y obj ≤ c := by
  intro y hy
  have hmem : fitObj y obj ∈ B.map (fun y => fitObj y obj) :=
    hperm.mem_iff.mp (List.mem_map_of_mem _ hy)
  obtain ⟨z, hz, hzeq⟩ := List.mem_map.mp hmem
  rw [← hzeq]
  exact h z hz

theorem cda_eq_three (l : List Individual) (h3 : 3 ≤ l.length) :
    crowding_distance_assignment l =
      (List.range (l.getD 0 default).fitness.length).foldl cdaPass
        (l.map fun x => { x with nsgaii_distance := ((0 : ℚ) : WithTop ℚ) }) := by
  unfold crowding_distance_assignment
  rw [if_neg (by omega), if_neg (by omega), if_neg (by omega)]

theorem cda_extremes_core (A B : List ℕ) (obj : ℕ) (init : List Individual)
    (hvar : ∃ x ∈ init, ∃ y ∈ init, fitObj x obj ≠ fitObj y obj) :
    (∃ x ∈ B.foldl cdaPass (cdaPass (A.foldl cdaPass init) obj),
      x.nsgaii_distance = ⊤ ∧
      ∀ y ∈ B.foldl cdaPass (cdaPass (A.foldl cdaPass init) obj),
        fitObj x obj ≤ fitObj y obj) ∧
    (∃ x ∈ B.foldl cdaPass (cdaPass (A.foldl cdaPass init) obj),
      x.nsgaii_distance = ⊤ ∧
      ∀ y ∈ B.foldl cdaPass (cdaPass (A.foldl cdaPass init) obj),
        fitObj y obj ≤ fitObj x obj) := by
  set mid := A.foldl cdaPass init with hmid
  have hmidvals : (mid.map (fun y => fitObj y obj)).Perm
      (init.map (fun y => fitObj y obj)) := by
    have h := foldl_cdaPass_map_vals A init obj
    rwa [← hmid] at h
  have hmidvar := exists_var_of_perm obj mid init hmidvals hvar
  obtain ⟨xm, hxm, hxd, hxmin⟩ := cdaPass_min_top mid obj hmidvar
  obtain ⟨xM, hxM, hxD, hxmax⟩ := cdaPass_max_top mid obj hmidvar
  have hfinvals : ((B.foldl cdaPass (cdaPass mid obj)).map
      (fun y => fitObj y obj)).Perm (mid.map (fun y => fitObj y obj)) :=
    (foldl_cdaPass_map_vals B (cdaPass mid obj) obj).trans
      (cdaPass_map_vals mid obj obj)
  constructor
  · exact ⟨xm, foldl_cdaPass_mem_top B (cdaPass mid obj) xm hxm hxd, hxd,
      all_le_of_perm obj (fitObj xm obj) _ mid hfinvals hxmin⟩
  · exact ⟨xM, foldl_cdaPass_mem_top B (cdaPass mid obj) xM hxM hxD, hxD,
      all_ge_of_perm obj (fitObj xM obj) _ mid hfinvals hxmax⟩

theorem cda_extremes_top (l : List Individual) (K obj : ℕ) (h3 : 3 ≤ l.length)
    (hK : ∀ x ∈ l, x.fitness.length = K) (hobj : obj < K)
    (hvar : ∃ x ∈ l, ∃ y ∈ l, fitObj x obj ≠ fitObj y obj) :
    (∃ x ∈ crowding_distance_assignment l, x.nsgaii_distance = ⊤ ∧
      ∀ y ∈ crowding_distance_assignment l, fitObj x obj ≤ fitObj y obj) ∧
    (∃ x ∈ crowding_distance_assignment l, x.nsgaii_distance = ⊤ ∧
      ∀ y ∈ crowding_distance_assignment l, fitObj y obj ≤ fitObj x obj) := by
  have h0 : 0 < l.length := by omega
  have hK0 : (l.getD 0 default).fitness.length = K := by
    rw [List.getD_eq_getElem l default h0]
    exact hK _ (List.getElem_mem h0)
  obtain ⟨A, B, hAB⟩ := List.append_of_mem (List.mem_range.mpr hobj)
  have hinitvals : (l.map fun x =>
        { x with nsgaii_distance := ((0 : ℚ) : WithTop ℚ) }).map
        (fun y => fitObj y obj) = l.map (fun y => fitObj y obj) := by
    rw [List.map_map]
    rfl
  have hvar2 : ∃ x ∈ (l.map fun x =>
        { x with nsgaii_distance := ((0 : ℚ) : WithTop ℚ) }),
      ∃ y ∈ (l.map fun x =>
        { x with nsgaii_distance := ((0 : ℚ) : WithTop ℚ) }),
      fitObj x obj ≠ fitObj y obj := by
    refine exists_var_of_perm obj _ l ?_ hvar
    rw [hinitvals]
  have hsplit : crowding_distance_assignment l =
      B.foldl cdaPass (cdaPass ((A.foldl cdaPass (l.map fun x =>
        { x with nsgaii_distance := ((0 : ℚ) : WithTop ℚ) }))) obj) := by
    rw [cda_eq_three l h3, hK0, hAB, List.foldl_append, List.foldl_cons]
  rw [hsplit]
  exact cda_extremes_core A B obj _ hvar2

theorem cdaPass_const_perm (l : List Individual) (obj : ℕ)
    (heq : ∀ x ∈ l, ∀ y ∈ l, fitObj x obj = fitObj y obj) :
    (cdaPass l obj).Perm l := by
  cases hs : l.mergeSort (byObjLe obj) with
  | nil =>
    have h0 := mergeSort_nil_imp l obj hs
    subst h0
    simp [cdaPass, hs]
  | cons x rest =>
    have hperm : (x :: rest).Perm l := by
      have := List.mergeSort_perm l (byObjLe obj)
      rwa [hs] at this
    have hfm : fitObj x obj =
        fitObj ((x :: rest).getLast (List.cons_ne_nil x rest)) obj := by
      have hx : x ∈ l := hperm.mem_iff.mp (List.mem_cons_self x rest)
      have hl : (x :: rest).getLast (List.cons_ne_nil x rest) ∈ l :=
        hperm.mem_iff.mp (List.getLast_mem _)
      exact heq x hx _ hl
    rw [cdaPass_eq l obj x rest hs, if_pos hfm]
    exact hperm

/-- C6: `crowding_distance_assignment` satisfies, for fronts sharing one
objective key-set: a front of size 0 changes nothing; size 1 sets that
member's distance to infinity; size 2 sets both members' distances to
infinity; an objective pass over a front with all values equal contributes
nothing (the pass only reorders, no member is modified); a member whose
distance is already infinite is never changed by a later objective pass; and
for size ≥ 3, every objective with varying values leaves a minimum-valued and
a maximum-valued member of that objective with infinite distance in the final
front. -/
theorem crowding_distance_assignment_spec :
    (crowding_distance_assignment [] = []) ∧
    (∀ a : Individual, crowding_distance_assignment [a] =
      [{ a with nsgaii_distance := ⊤ }]) ∧
    (∀ a b : Individual, crowding_distance_assignment [a, b] =
      [{ a with nsgaii_distance := ⊤ }, { b with nsgaii_distance := ⊤ }]) ∧
    (∀ (l : List Individual) (obj : ℕ),
      (∀ x ∈ l, ∀ y ∈ l, fitObj x obj = fitObj y obj) →
      (cdaPass l obj).Perm l) ∧
    (∀ (l : List Individual) (obj : ℕ) (x : Individual),
      x ∈ l → x.nsgaii_distance = ⊤ → x ∈ cdaPass l obj) ∧
    (∀ (l : List Individual) (K obj : ℕ), 3 ≤ l.length →
      (∀ x ∈ l, x.fitness.length = K) → obj < K →
      (∃ x ∈ l, ∃ y ∈ l, fitObj x obj ≠ fitObj y obj) →
      (∃ x ∈ crowding_distance_assignment l, x.nsgaii_distance = ⊤ ∧
        ∀ y ∈ crowding_distance_assignment l, fitObj x obj ≤ fitObj y obj) ∧
      (∃ x ∈ crowding_distance_assignment l, x.nsgaii_distance = ⊤ ∧
        ∀ y ∈ crowding_distance_assignment l, fitObj y obj ≤ fitObj x obj)) :=
  ⟨rfl, fun _ => rfl, fun _ _ => rfl, cdaPass_const_perm, cdaPass_mem_top,
    cda_extremes_top⟩

/-- Front for the C6 witness: three members, two objectives, the first
varying and the second constant. -/
def frontW3 : List Individual :=
  [⟨1, [1, 5], 0, 0⟩, ⟨2, [2, 5], 0, 0⟩, ⟨3, [4, 5], 0, 0⟩]

/-- Witness for C6: the varying-objective clause applied to a concrete
three-member front. -/
theorem crowding_distance_assignment_spec_witness :
    (3 ≤ frontW3.length ∧ (∀ x ∈ frontW3, x.fitness.length = 2) ∧ 0 < 2 ∧
      (∃ x ∈ frontW3, ∃ y ∈ frontW3, fitObj x 0 ≠ fitObj y 0)) ∧
    (∃ x ∈ crowding_distance_assignment frontW3, x.nsgaii_distance = ⊤ ∧
      ∀ y ∈ crowding_distance_assignment frontW3, fitObj x 0 ≤ fitObj y 0) :=
  ⟨⟨by decide, by decide, by decide, by decide⟩,
    (crowding_distance_assignment_spec.2.2.2.2.2 frontW3 2 0 (by decide)
      (by decide) (by decide) (by decide)).1⟩

/-! ## C10: fast_non_dominated_sort partitions the population -/

/-- The dominance relation on population positions: `Dom pop j i` holds when
both are positions of distinct members and member `j` dominates member `i`. -/
def Dom (pop : List Individual) (j i : ℕ) : Prop :=
  j < pop.length ∧ i < pop.length ∧ j ≠ i ∧
  dominates (pop.getD j default) (pop.getD i default) = true

instance (pop : List Individual) (j i : ℕ) : Decidable (Dom pop j i) := by
  unfold Dom
  infer_instance

theorem Dom_irrefl (pop : List Individual) (i : ℕ) : ¬ Dom pop i i :=
  fun h => h.2.2.1 rfl

theorem getD_fitness_length (pop : List Individual) (K : ℕ)
    (hK : ∀ x ∈ pop, x.fitness.length = K) (i : ℕ) (hi : i < pop.length) :
    (pop.getD i default).fitness.length = K := by
  rw [List.getD_eq_getElem pop default hi]
  exact hK _ (List.getElem_mem hi)

theorem Dom_trans (pop : List Individual) (K : ℕ)
    (hK : ∀ x ∈ pop, x.fitness.length = K) (a b c : ℕ)
    (h1 : Dom pop a b) (h2 : Dom pop b c) : Dom pop a c := by
  obtain ⟨haL, hbL, hab, hd1⟩ := h1
  obtain ⟨_, hcL, hbc, hd2⟩ := h2
  have hd3 : dominates (pop.getD a default) (pop.getD c default) = true :=
    dominates_trans _ _ _
      (by rw [getD_fitness_length pop K hK a haL, getD_fitness_length pop K hK b hbL])
      (by rw [getD_fitness_length pop K hK b hbL, getD_fitness_length pop K hK c hcL])
      hd1 hd2
  refine ⟨haL, hcL, ?_, hd3⟩
  intro hac
  subst hac
  exact dominates_asymm _ _ hd1 hd2

/-- Spec-level domination count: the number of positions that dominate `i`
and are not yet processed (not in `P`). -/
def residCount (pop : List Individual) (P : Finset ℕ) (i : ℕ) : ℕ :=
  ((Finset.range pop.length).filter fun j => Dom pop j i ∧ j ∉ P).card

theorem mem_domList (pop : List Individual) (i q : ℕ) (hi : i < pop.length) :
    q ∈ domList pop i ↔ Dom pop i q := by
  simp only [domList, List.mem_filter, List.mem_range, Bool.and_eq_true,
    decide_eq_true_eq, Dom]
  constructor
  · rintro ⟨hq, hne, hd⟩
    exact ⟨hi, hq, fun h => hne h.symm, hd⟩
  · rintro ⟨_, hq, hne, hd⟩
    exact ⟨hq, fun h => hne h.symm, hd⟩

theorem domList_nodup (pop : List Individual) (i : ℕ) : (domList pop i).Nodup :=
  (List.nodup_range _).filter _

theorem count_domList (pop : List Individual) (i q : ℕ) (hi : i < pop.length) :
    (domList pop i).count q = if Dom pop i q then 1 else 0 := by
  have hle := List.nodup_iff_count_le_one.mp (domList_nodup pop i) q
  by_cases hmem : q ∈ domList pop i
  · have hpos := List.count_pos_iff.mpr hmem
    rw [if_pos ((mem_domList pop i q hi).mp hmem)]
    omega
  · rw [if_neg (fun hD => hmem ((mem_domList pop i q hi).mpr hD))]
    exact List.count_eq_zero.mpr hmem

theorem foldl_inner_eq_flatMap {σ : Type} (f : σ → ℕ → σ) (g : ℕ → List ℕ) :
    ∀ (cur : List ℕ) (st : σ),
      cur.foldl (fun s i => (g i).foldl f s) st = (cur.flatMap g).foldl f st
  | [], _ => rfl
  | j :: rest, st => by
    rw [List.foldl_cons, List.flatMap_cons, List.foldl_append]
    exact foldl_inner_eq_flatMap f g rest _

theorem processFront_eq (pop : List Individual) (r : ℕ) (counts : ℕ → ℤ)
    (ranks : ℕ → Option ℕ) (cur : List ℕ) :
    processFront pop r counts ranks cur =
      (cur.flatMap (domList pop)).foldl (decStep r) (counts, ranks, []) := by
  unfold processFront
  exact foldl_inner_eq_flatMap (decStep r) (domList pop) cur (counts, ranks, [])

theorem count_flatMap_domList (pop : List Individual) (q : ℕ) :
    ∀ (cur : List ℕ), (∀ j ∈ cur, j < pop.length) →
      (cur.flatMap (domList pop)).count q =
        cur.countP (fun j => decide (Dom pop j q))
  | [], _ => rfl
  | j :: rest, hlt => by
    rw [List.flatMap_cons, List.count_append, List.countP_cons,
      count_domList pop j q (hlt j (List.mem_cons_self j rest)),
      count_flatMap_domList pop q rest (fun k hk => hlt k (List.mem_cons_of_mem _ hk))]
    by_cases hD : Dom pop j q
    · simp [hD]
      omega
    · simp [hD]

theorem foldDec_spec (r : ℕ) :
    ∀ (E : List ℕ) (c : ℕ → ℤ) (rk : ℕ → Option ℕ) (acc : List ℕ),
      (∀ q, (E.foldl (decStep r) (c, rk, acc)).1 q = c q - E.count q) ∧
      (∀ q, (E.foldl (decStep r) (c, rk, acc)).2.2.count q =
        acc.count q + (if 1 ≤ c q ∧ c q ≤ (E.count q : ℤ) then 1 else 0)) ∧
      (∀ q, (E.foldl (decStep r) (c, rk, acc)).2.1 q =
        (if 1 ≤ c q ∧ c q ≤ (E.count q : ℤ) then some r else rk q))
  | [], c, rk, acc => by
    refine ⟨fun q => by simp, fun q => ?_, fun q => ?_⟩
    · simp only [List.foldl_nil, List.count_nil, Nat.cast_zero]
      rw [if_neg (by omega)]
      simp
    · simp only [List.foldl_nil, List.count_nil, Nat.cast_zero]
      rw [if_neg (by omega)]
  | e :: E', c, rk, acc => by
    have hcount : ∀ q, (List.count q (e :: E') : ℤ) =
        (E'.count q : ℤ) + (if q = e then 1 else 0) := by
      intro q
      rw [List.count_cons]
      by_cases h : q = e
      · simp [h]
      · have h2 : ¬ e = q := fun hh => h hh.symm
        simp [h, h2]
    rw [List.foldl_cons]
    by_cases hce : c e - 1 = 0
    · have hstep : decStep r (c, rk, acc) e =
          (Function.update c e (c e - 1), Function.update rk e (some r),
            acc ++ [e]) := by
        simp [decStep, Function.update_same, hce]
      rw [hstep]
      obtain ⟨ih1, ih2, ih3⟩ := foldDec_spec r E' (Function.update c e (c e - 1))
        (Function.update rk e (some r)) (acc ++ [e])
      refine ⟨fun q => ?_, fun q => ?_, fun q => ?_⟩
      · rw [ih1 q, hcount q]
        by_cases h : q = e
        · subst h
          rw [Function.update_same]
          simp
          omega
        · rw [Function.update_noteq h]
          simp [h]
      · rw [ih2 q, List.count_append, hcount q]
        by_cases h : q = e
        · subst h
          rw [Function.update_same]
          rw [if_neg (by omega), if_pos (by constructor <;> omega)]
          simp
        · rw [Function.update_noteq h]
          simp only [h, if_false, add_zero]
          have : List.count q [e] = 0 :=
            List.count_eq_zero.mpr (by simp only [List.mem_singleton]; exact h)
          rw [this]
          ring_nf
      · rw [ih3 q, hcount q]
        by_cases h : q = e
        · subst h
          rw [Function.update_same, Function.update_same]
          rw [if_neg (by omega), if_pos (by constructor <;> omega)]
        · rw [Function.update_noteq h, Function.update_noteq h]
          simp [h]
    · have hstep : decStep r (c, rk, acc) e =
          (Function.update c e (c e - 1), rk, acc) := by
        simp [decStep, Function.update_same, hce]
      rw [hstep]
      obtain ⟨ih1, ih2, ih3⟩ := foldDec_spec r E' (Function.update c e (c e - 1))
        rk acc
      refine ⟨fun q => ?_, fun q => ?_, fun q => ?_⟩
      · rw [ih1 q, hcount q]
        by_cases h : q = e
        · subst h
          rw [Function.update_same]
          simp
          omega
        · rw [Function.update_noteq h]
          simp [h]
      · rw [ih2 q, hcount q]
        by_cases h : q = e
        · subst h
          rw [Function.update_same]
          by_cases h1 : 1 ≤ c q - 1 ∧ c q - 1 ≤ (E'.count q : ℤ)
          · rw [if_pos h1, if_pos (by constructor <;> omega)]
          · rw [if_neg h1, if_neg (by omega)]
        · rw [Function.update_noteq h]
          simp [h]
      · rw [ih3 q, hcount q]
        by_cases h : q = e
        · subst h
          rw [Function.update_same]
          by_cases h1 : 1 ≤ c q - 1 ∧ c q - 1 ≤ (E'.count q : ℤ)
          · rw [if_pos h1, if_pos (by constructor <;> omega)]
          · rw [if_neg h1, if_neg (by omega)]
        · rw [Function.update_noteq h]
          simp [h]

theorem countP_eq_card_filter_toFinset (p : ℕ → Prop) [DecidablePred p] :
    ∀ (cur : List ℕ), cur.Nodup →
      cur.countP (fun j => decide (p j)) = (cur.toFinset.filter p).card
  | [], _ => by simp
  | x :: xs, hnd => by
    have hx : x ∉ xs := (List.nodup_cons.mp hnd).1
    have hx2 : x ∉ xs.toFinset := by simpa using hx
    rw [List.countP_cons, List.toFinset_cons, Finset.filter_insert,
      countP_eq_card_filter_toFinset p xs (List.nodup_cons.mp hnd).2]
    by_cases hp : p x
    · rw [if_pos hp, if_pos (by simpa using hp),
        Finset.card_insert_of_not_mem (fun hmem => hx2 (Finset.mem_filter.mp hmem).1)]
    · rw [if_neg (by simpa using hp), if_neg hp]
      simp

theorem list_range_toFinset (n : ℕ) : (List.range n).toFinset = Finset.range n := by
  ext x
  simp

/-- In a nonempty finite set, an irreflexive transitive relation has a
minimal element. -/
theorem exists_min_aux (R : ℕ → ℕ → Prop) [DecidableRel R]
    (hirr : ∀ a, ¬ R a a) (htrans : ∀ a b c, R a b → R b c → R a c)
    (S : Finset ℕ) :
    ∀ (c : ℕ) (q : ℕ), q ∈ S → (S.filter (fun j => R j q)).card ≤ c →
      ∃ m ∈ S, ∀ j ∈ S, ¬ R j m
  | 0, q, hq, hc =>
    ⟨q, hq, fun j hj hR => by
      have hmem : j ∈ S.filter (fun j => R j q) := Finset.mem_filter.mpr ⟨hj, hR⟩
      have := Finset.card_pos.mpr ⟨j, hmem⟩
      omega⟩
  | c + 1, q, hq, hc => by
    by_cases hemp : (S.filter (fun j => R j q)).card = 0
    · refine ⟨q, hq, fun j hj hR => ?_⟩
      have hmem : j ∈ S.filter (fun j => R j q) := Finset.mem_filter.mpr ⟨hj, hR⟩
      have := Finset.card_pos.mpr ⟨j, hmem⟩
      omega
    · obtain ⟨j0, hj0⟩ := Finset.card_pos.mp
        (show 0 < (S.filter (fun j => R j q)).card by omega)
      have hj0S : j0 ∈ S := (Finset.mem_filter.mp hj0).1
      have hj0R : R j0 q := (Finset.mem_filter.mp hj0).2
      have hsub : S.filter (fun j => R j j0) ⊆ S.filter (fun j => R j q) := by
        intro k hk
        rcases Finset.mem_filter.mp hk with ⟨hkS, hkR⟩
        exact Finset.mem_filter.mpr ⟨hkS, htrans k j0 q hkR hj0R⟩
      have hstrict : (S.filter (fun j => R j j0)).card <
          (S.filter (fun j => R j q)).card := by
        apply Finset.card_lt_card
        rw [Finset.ssubset_def]
        refine ⟨hsub, fun hsup => ?_⟩
        exact hirr j0 (Finset.mem_filter.mp (hsup hj0)).2
      exact exists_min_aux R hirr htrans S c j0 hj0S
        (Nat.lt_succ_iff.mp (lt_of_lt_of_le hstrict hc))

theorem exists_min (R : ℕ → ℕ → Prop) [DecidableRel R]
    (hirr : ∀ a, ¬ R a a) (htrans : ∀ a b c, R a b → R b c → R a c)
    (S : Finset ℕ) (hne : S.Nonempty) : ∃ m ∈ S, ∀ j ∈ S, ¬ R j m := by
  obtain ⟨q, hq⟩ := hne
  exact exists_min_aux R hirr htrans S ((S.filter (fun j => R j q)).card) q hq le_rfl

/-- Number of members of the current front that dominate position `q`. -/
def cntCurF (pop : List Individual) (cur : List ℕ) (q : ℕ) : ℕ :=
  (cur.toFinset.filter (fun j => Dom pop j q)).card

theorem count_edges (pop : List Individual) (cur : List ℕ) (q : ℕ)
    (hnd : cur.Nodup) (hlt : ∀ j ∈ cur, j < pop.length) :
    (cur.flatMap (domList pop)).count q = cntCurF pop cur q := by
  rw [count_flatMap_domList pop q cur hlt]
  exact countP_eq_card_filter_toFinset (fun j => Dom pop j q) cur hnd

/-- The loop invariant of `fast_non_dominated_sort`: `P` is the set of
positions in already-processed fronts, `current` the front about to be
processed (already emitted), `counts` the live domination counts, `ranks`
the ranks assigned so far, `idx` the rank of `current`'s members. -/
structure SortInv (pop : List Individual) (P : Finset ℕ) (idx : ℕ)
    (counts : ℕ → ℤ) (ranks : ℕ → Option ℕ) (current : List ℕ) : Prop where
  curNodup : current.Nodup
  curLt : ∀ q ∈ current, q < pop.length
  curNotP : ∀ q ∈ current, q ∉ P
  curZero : ∀ q ∈ current, counts q = 0
  curDomP : ∀ q ∈ current, ∀ j, Dom pop j q → j ∈ P
  pClosed : ∀ q ∈ P, ∀ j, Dom pop j q → j ∈ P
  pLt : ∀ q ∈ P, q < pop.length
  unCount : ∀ q, q < pop.length → q ∉ P → q ∉ current →
    counts q = (residCount pop P q : ℤ)
  unPos : ∀ q, q < pop.length → q ∉ P → q ∉ current → 0 < counts q
  curRank : ∀ q ∈ current, ranks q = some idx

theorem processFront_spec (pop : List Individual) (idx : ℕ)
    (counts : ℕ → ℤ) (ranks : ℕ → Option ℕ) (current : List ℕ)
    (hnd : current.Nodup) (hlt : ∀ j ∈ current, j < pop.length) :
    (∀ q, (processFront pop (idx + 1) counts ranks current).1 q =
      counts q - (cntCurF pop current q : ℤ)) ∧
    (∀ q, q ∈ (processFront pop (idx + 1) counts ranks current).2.2 ↔
      (1 ≤ counts q ∧ counts q ≤ (cntCurF pop current q : ℤ))) ∧
    (processFront pop (idx + 1) counts ranks current).2.2.Nodup ∧
    (∀ q, (processFront pop (idx + 1) counts ranks current).2.1 q =
      (if 1 ≤ counts q ∧ counts q ≤ (cntCurF pop current q : ℤ)
       then some (idx + 1) else ranks q)) := by
  rw [processFront_eq]
  obtain ⟨h1, h2, h3⟩ :=
    foldDec_spec (idx + 1) (current.flatMap (domList pop)) counts ranks []
  have hcnt : ∀ q, ((current.flatMap (domList pop)).count q : ℤ) =
      (cntCurF pop current q : ℤ) := by
    intro q
    rw [count_edges pop current q hnd hlt]
  have hcount2 : ∀ q, (((current.flatMap (domList pop)).foldl
      (decStep (idx + 1)) (counts, ranks, [])).2.2).count q =
      (if 1 ≤ counts q ∧ counts q ≤ (cntCurF pop current q : ℤ) then 1 else 0) := by
    intro q
    rw [h2 q, List.count_nil, hcnt q]
    omega
  refine ⟨fun q => ?_, fun q => ?_, ?_, fun q => ?_⟩
  · rw [h1 q, hcnt q]
  · rw [← List.count_pos_iff, hcount2 q]
    by_cases hc : 1 ≤ counts q ∧ counts q ≤ (cntCurF pop current q : ℤ)
    · simp [hc]
    · simp [hc]
  · rw [List.nodup_iff_count_le_one]
    intro q
    rw [hcount2 q]
    split
    · omega
    · omega
  · rw [h3 q, hcnt q]

theorem residCount_eq_card (pop : List Individual) (P : Finset ℕ) (q : ℕ) :
    residCount pop P q =
      ((Finset.range pop.length).filter fun j => Dom pop j q ∧ j ∉ P).card := rfl

theorem cntCur_le_resid (pop : List Individual) (P : Finset ℕ)
    (current : List ℕ) (q : ℕ) (hlt : ∀ j ∈ current, j < pop.length)
    (hnp : ∀ j ∈ current, j ∉ P) :
    current.toFinset.filter (fun j => Dom pop j q) ⊆
      (Finset.range pop.length).filter fun j => Dom pop j q ∧ j ∉ P := by
  intro j hj
  rcases Finset.mem_filter.mp hj with ⟨hjc, hjD⟩
  have hjc2 : j ∈ current := List.mem_toFinset.mp hjc
  exact Finset.mem_filter.mpr
    ⟨Finset.mem_range.mpr (hlt j hjc2), hjD, hnp j hjc2⟩

theorem step_inv (pop : List Individual) (P : Finset ℕ) (idx : ℕ)
    (counts : ℕ → ℤ) (ranks : ℕ → Option ℕ) (current : List ℕ)
    (inv : SortInv pop P idx counts ranks current) :
    SortInv pop (P ∪ current.toFinset) (idx + 1)
      (processFront pop (idx + 1) counts ranks current).1
      (processFront pop (idx + 1) counts ranks current).2.1
      (processFront pop (idx + 1) counts ranks current).2.2 ∧
    (∀ q, q ∈ P ∨ q ∈ current →
      (processFront pop (idx + 1) counts ranks current).2.1 q = ranks q) ∧
    (∀ q, q ∈ (processFront pop (idx + 1) counts ranks current).2.2 →
      q < pop.length ∧ q ∉ P ∧ q ∉ current) ∧
    (P ∪ current.toFinset).card = P.card + current.length := by
  obtain ⟨hc', hmem', hnd', hrk'⟩ :=
    processFront_spec pop idx counts ranks current inv.curNodup inv.curLt
  -- members of the current front are not re-decremented: no member of
  -- `current` dominates a processed or current position
  have hPzero : ∀ q ∈ P, cntCurF pop current q = 0 := by
    intro q hq
    rw [cntCurF, Finset.card_eq_zero, Finset.filter_eq_empty_iff]
    intro j hj hD
    exact inv.curNotP j (List.mem_toFinset.mp hj) (inv.pClosed q hq j hD)
  -- the membership condition fails for every already-placed position
  have hcondP : ∀ q ∈ P,
      ¬(1 ≤ counts q ∧ counts q ≤ (cntCurF pop current q : ℤ)) := by
    intro q hq hcond
    rw [hPzero q hq] at hcond
    omega
  have hcondCur : ∀ q ∈ current,
      ¬(1 ≤ counts q ∧ counts q ≤ (cntCurF pop current q : ℤ)) := by
    intro q hq hcond
    rw [inv.curZero q hq] at hcond
    omega
  -- new-front members are fresh and below the population size
  have hnf : ∀ q ∈ (processFront pop (idx + 1) counts ranks current).2.2,
      q < pop.length ∧ q ∉ P ∧ q ∉ current := by
    intro q hq
    have hcond := (hmem' q).mp hq
    have hqP : q ∉ P := fun h => hcondP q h hcond
    have hqC : q ∉ current := fun h => hcondCur q h hcond
    have hqL : q < pop.length := by
      have hpos : 0 < cntCurF pop current q := by
        have := hcond.1.trans hcond.2
        omega
      obtain ⟨j, hj⟩ := Finset.card_pos.mp hpos
      exact ((Finset.mem_filter.mp hj).2).2.1
    exact ⟨hqL, hqP, hqC⟩
  -- for an unplaced position the condition characterizes full coverage of its
  -- remaining dominators by the current front
  have hcover : ∀ q, q < pop.length → q ∉ P → q ∉ current →
      (1 ≤ counts q ∧ counts q ≤ (cntCurF pop current q : ℤ)) →
      (∀ j, Dom pop j q → j ∉ P → j ∈ current) ∧
      counts q = (cntCurF pop current q : ℤ) := by
    intro q hqL hqP hqC hcond
    have hcounts : counts q = (residCount pop P q : ℤ) :=
      inv.unCount q hqL hqP hqC
    have hsub := cntCur_le_resid pop P current q inv.curLt inv.curNotP
    have hcards : residCount pop P q ≤ cntCurF pop current q := by
      rw [hcounts] at hcond
      exact_mod_cast hcond.2
    have heq : (Finset.range pop.length).filter
        (fun j => Dom pop j q ∧ j ∉ P) =
        current.toFinset.filter (fun j => Dom pop j q) :=
      (Finset.eq_of_subset_of_card_le hsub hcards).symm
    constructor
    · intro j hD hjP
      have : j ∈ (Finset.range pop.length).filter
          (fun j => Dom pop j q ∧ j ∉ P) :=
        Finset.mem_filter.mpr ⟨Finset.mem_range.mpr hD.1, hD, hjP⟩
      rw [heq] at this
      exact List.mem_toFinset.mp (Finset.mem_filter.mp this).1
    · rw [hcounts, residCount_eq_card, heq]
      rfl
  -- the residual count with respect to the enlarged processed set
  have hresid' : ∀ q, q < pop.length →
      residCount pop (P ∪ current.toFinset) q =
        residCount pop P q - cntCurF pop current q := by
    intro q hqL
    have hsub := cntCur_le_resid pop P current q inv.curLt inv.curNotP
    have hsd : (Finset.range pop.length).filter
        (fun j => Dom pop j q ∧ j ∉ P ∪ current.toFinset) =
        ((Finset.range pop.length).filter (fun j => Dom pop j q ∧ j ∉ P)) \
          (current.toFinset.filter (fun j => Dom pop j q)) := by
      ext j
      simp only [Finset.mem_filter, Finset.mem_sdiff, Finset.mem_range,
        Finset.mem_union, List.mem_toFinset]
      constructor
      · rintro ⟨hjL, hD, hnotin⟩
        push_neg at hnotin
        exact ⟨⟨hjL, hD, hnotin.1⟩, fun hboth => hnotin.2 hboth.1⟩
      · rintro ⟨⟨hjL, hD, hjP⟩, hnot⟩
        refine ⟨hjL, hD, ?_⟩
        intro hin
        rcases hin with hin | hin
        · exact hjP hin
        · exact hnot ⟨hin, hD⟩
    rw [residCount_eq_card, hsd, Finset.card_sdiff hsub]
    rfl
  refine ⟨?_, ?_, hnf, ?_⟩
  · constructor
    · exact hnd'
    · exact fun q hq => (hnf q hq).1
    · intro q hq
      rw [Finset.mem_union]
      push_neg
      exact ⟨(hnf q hq).2.1, fun h => (hnf q hq).2.2 (List.mem_toFinset.mp h)⟩
    · intro q hq
      have hcond := (hmem' q).mp hq
      have h := hnf q hq
      have := (hcover q h.1 h.2.1 h.2.2 hcond).2
      rw [hc' q]
      omega
    · intro q hq j hD
      have hcond := (hmem' q).mp hq
      have h := hnf q hq
      have hcov := (hcover q h.1 h.2.1 h.2.2 hcond).1
      rw [Finset.mem_union]
      by_cases hjP : j ∈ P
      · exact Or.inl hjP
      · exact Or.inr (List.mem_toFinset.mpr (hcov j hD hjP))
    · intro q hq j hD
      rw [Finset.mem_union] at hq ⊢
      rcases hq with hq | hq
      · exact Or.inl (inv.pClosed q hq j hD)
      · exact Or.inl (inv.curDomP q (List.mem_toFinset.mp hq) j hD)
    · intro q hq
      rw [Finset.mem_union] at hq
      rcases hq with hq | hq
      · exact inv.pLt q hq
      · exact inv.curLt q (List.mem_toFinset.mp hq)
    · intro q hqL hqP' hqnf
      have hqP : q ∉ P := fun h => hqP' (Finset.mem_union.mpr (Or.inl h))
      have hqC : q ∉ current := fun h =>
        hqP' (Finset.mem_union.mpr (Or.inr (List.mem_toFinset.mpr h)))
      have hcond : ¬(1 ≤ counts q ∧ counts q ≤ (cntCurF pop current q : ℤ)) :=
        fun h => hqnf ((hmem' q).mpr h)
      have hcounts : counts q = (residCount pop P q : ℤ) :=
        inv.unCount q hqL hqP hqC
      have hpos : 0 < counts q := inv.unPos q hqL hqP hqC
      have hle : cntCurF pop current q ≤ residCount pop P q :=
        Finset.card_le_card (cntCur_le_resid pop P current q inv.curLt inv.curNotP)
      rw [hc' q, hresid' q hqL, hcounts]
      push_cast [Nat.cast_sub hle]
      ring
    · intro q hqL hqP' hqnf
      have hqP : q ∉ P := fun h => hqP' (Finset.mem_union.mpr (Or.inl h))
      have hqC : q ∉ current := fun h =>
        hqP' (Finset.mem_union.mpr (Or.inr (List.mem_toFinset.mpr h)))
      have hcond : ¬(1 ≤ counts q ∧ counts q ≤ (cntCurF pop current q : ℤ)) :=
        fun h => hqnf ((hmem' q).mpr h)
      have hcounts : counts q = (residCount pop P q : ℤ) :=
        inv.unCount q hqL hqP hqC
      have hpos : 0 < counts q := inv.unPos q hqL hqP hqC
      rw [hc' q]
      omega
    · intro q hq
      have hcond := (hmem' q).mp hq
      rw [hrk' q, if_pos hcond]
  · intro q hq
    rw [hrk' q]
    rcases hq with hq | hq
    · rw [if_neg (hcondP q hq)]
    · rw [if_neg (hcondCur q hq)]
  · rw [Finset.card_union_of_disjoint, List.toFinset_card_of_nodup inv.curNodup]
    rw [Finset.disjoint_left]
    intro a ha hac
    exact inv.curNotP a (List.mem_toFinset.mp hac) ha

theorem sortLoop_nil (pop : List Individual) (fuel idx : ℕ) (counts : ℕ → ℤ)
    (ranks : ℕ → Option ℕ) :
    sortLoop pop (fuel + 1) idx counts ranks [] = ([], ranks) := rfl

theorem sortLoop_cons (pop : List Individual) (fuel idx : ℕ) (counts : ℕ → ℤ)
    (ranks : ℕ → Option ℕ) (current : List ℕ) (hne : current ≠ []) :
    sortLoop pop (fuel + 1) idx counts ranks current =
      (current :: (sortLoop pop fuel (idx + 1)
          (processFront pop (idx + 1) counts ranks current).1
          (processFront pop (idx + 1) counts ranks current).2.1
          (processFront pop (idx + 1) counts ranks current).2.2).1,
        (sortLoop pop fuel (idx + 1)
          (processFront pop (idx + 1) counts ranks current).1
          (processFront pop (idx + 1) counts ranks current).2.1
          (processFront pop (idx + 1) counts ranks current).2.2).2) := by
  rw [sortLoop, if_neg hne]

theorem domCount_eq_resid (pop : List Individual) (q : ℕ)
    (hq : q < pop.length) : domCount pop q = (residCount pop ∅ q : ℤ) := by
  unfold domCount
  have h1 : ((List.range pop.length).filter fun j =>
      decide (j ≠ q) && !dominates (pop.getD q default) (pop.getD j default) &&
        dominates (pop.getD j default) (pop.getD q default)).length =
      (List.range pop.length).countP (fun j =>
        decide (Dom pop j q ∧ j ∉ (∅ : Finset ℕ))) := by
    rw [← List.countP_eq_length_filter]
    apply List.countP_congr
    intro j hj
    have hjL : j < pop.length := List.mem_range.mp hj
    simp only [Bool.and_eq_true, decide_eq_true_eq, Bool.not_eq_true',
      Finset.not_mem_empty, not_false_iff, and_true, Dom]
    constructor
    · rintro ⟨⟨hne, hnd⟩, hd⟩
      exact ⟨hjL, hq, hne, hd⟩
    · rintro ⟨_, _, hne, hd⟩
      refine ⟨⟨hne, ?_⟩, hd⟩
      cases hdq : dominates (pop.getD q default) (pop.getD j default)
      · rfl
      · exact (dominates_asymm _ _ hdq hd).elim
  rw [h1, countP_eq_card_filter_toFinset _ _ (List.nodup_range _),
    list_range_toFinset]
  rfl

theorem entry_inv (pop : List Individual) :
    SortInv pop ∅ 0 (fun i => domCount pop i)
      (fun i => if domCount pop i = 0 ∧ i < pop.length then some 0 else none)
      ((List.range pop.length).filter fun i => decide (domCount pop i = 0)) := by
  have hmem : ∀ q, q ∈ ((List.range pop.length).filter fun i =>
      decide (domCount pop i = 0)) ↔ (q < pop.length ∧ domCount pop q = 0) := by
    intro q
    simp [List.mem_filter, List.mem_range]
  constructor
  · exact (List.nodup_range _).filter _
  · exact fun q hq => ((hmem q).mp hq).1
  · exact fun q _ => Finset.not_mem_empty q
  · exact fun q hq => ((hmem q).mp hq).2
  · intro q hq j hD
    obtain ⟨hqL, hq0⟩ := (hmem q).mp hq
    rw [domCount_eq_resid pop q hqL] at hq0
    have hcard : residCount pop ∅ q = 0 := by exact_mod_cast hq0
    rw [residCount_eq_card, Finset.card_eq_zero] at hcard
    have : j ∈ (Finset.range pop.length).filter
        (fun j => Dom pop j q ∧ j ∉ (∅ : Finset ℕ)) :=
      Finset.mem_filter.mpr ⟨Finset.mem_range.mpr hD.1,
        hD, Finset.not_mem_empty j⟩
    rw [hcard] at this
    exact absurd this (Finset.not_mem_empty j)
  · exact fun q hq => absurd hq (Finset.not_mem_empty q)
  · exact fun q hq => absurd hq (Finset.not_mem_empty q)
  · intro q hqL _ _
    exact domCount_eq_resid pop q hqL
  · intro q hqL _ hqC
    have hne : domCount pop q ≠ 0 := fun h0 =>
      hqC ((hmem q).mpr ⟨hqL, h0⟩)
    have := domCount_eq_resid pop q hqL
    have hnn : (0 : ℤ) ≤ domCount pop q := by
      rw [this]
      exact_mod_cast Nat.zero_le _
    omega
  · intro q hq
    obtain ⟨hqL, hq0⟩ := (hmem q).mp hq
    rw [if_pos ⟨hq0, hqL⟩]

theorem sortLoop_spec (pop : List Individual) (K : ℕ)
    (hK : ∀ x ∈ pop, x.fitness.length = K) :
    ∀ (fuel idx : ℕ) (P : Finset ℕ) (counts : ℕ → ℤ)
      (ranks : ℕ → Option ℕ) (current : List ℕ),
      SortInv pop P idx counts ranks current →
      pop.length - P.card < fuel →
      (∀ q, q ∈ (sortLoop pop fuel idx counts ranks current).1.flatten ↔
        (q < pop.length ∧ q ∉ P)) ∧
      (sortLoop pop fuel idx counts ranks current).1.flatten.Nodup ∧
      (∀ f ∈ (sortLoop pop fuel idx counts ranks current).1, f ≠ []) ∧
      (∀ (j : ℕ) (hj : j < (sortLoop pop fuel idx counts ranks current).1.length),
        ∀ q ∈ (sortLoop pop fuel idx counts ranks current).1.get ⟨j, hj⟩,
        (sortLoop pop fuel idx counts ranks current).2 q = some (idx + j)) ∧
      (∀ q, q ∈ P ∨ q ∈ current →
        (sortLoop pop fuel idx counts ranks current).2 q = ranks q)
  | 0, idx, P, counts, ranks, current => by
    intro _ hfuel
    exact absurd hfuel (Nat.not_lt_zero _)
  | fuel + 1, idx, P, counts, ranks, current => by
    intro inv hfuel
    by_cases hne : current = []
    · subst hne
      rw [sortLoop_nil]
      have hnone : ∀ q, ¬(q < pop.length ∧ q ∉ P) := by
        rintro q ⟨hqL, hqP⟩
        have hS : q ∈ (Finset.range pop.length).filter (fun i => i ∉ P) :=
          Finset.mem_filter.mpr ⟨Finset.mem_range.mpr hqL, hqP⟩
        obtain ⟨m, hmS, hmmin⟩ := exists_min (Dom pop) (Dom_irrefl pop)
          (Dom_trans pop K hK) _ ⟨q, hS⟩
        obtain ⟨hmR, hmP⟩ := Finset.mem_filter.mp hmS
        have hmL : m < pop.length := Finset.mem_range.mp hmR
        have hresid : residCount pop P m = 0 := by
          rw [residCount_eq_card, Finset.card_eq_zero, Finset.filter_eq_empty_iff]
        -- every remaining dominator of the minimal element would itself be
        -- an unprocessed element below it
          intro j hj
          rintro ⟨hD, hjP⟩
          exact hmmin j (Finset.mem_filter.mpr
            ⟨Finset.mem_range.mpr hD.1, hjP⟩) hD
        have h1 := inv.unCount m hmL hmP (List.not_mem_nil m)
        have h2 := inv.unPos m hmL hmP (List.not_mem_nil m)
        rw [h1, hresid] at h2
        exact absurd h2 (by norm_num)
      refine ⟨fun q => ?_, List.nodup_nil, ?_, ?_, fun q _ => rfl⟩
      · simp only [List.flatten_nil, List.not_mem_nil, false_iff]
        exact hnone q
      · intro f hf
        exact absurd hf (List.not_mem_nil f)
      · intro j hj
        exact absurd hj (by simp)
    · rw [sortLoop_cons pop fuel idx counts ranks current hne]
      obtain ⟨inv', hrkpres, hfresh, hcard⟩ :=
        step_inv pop P idx counts ranks current inv
      have hlen : 0 < current.length := List.length_pos.mpr hne
      have hsub : (P ∪ current.toFinset).card ≤ pop.length := by
        have hss : P ∪ current.toFinset ⊆ Finset.range pop.length := by
          intro a ha
          rw [Finset.mem_union] at ha
          rcases ha with ha | ha
          · exact Finset.mem_range.mpr (inv.pLt a ha)
          · exact Finset.mem_range.mpr (inv.curLt a (List.mem_toFinset.mp ha))
        have := Finset.card_le_card hss
        rwa [Finset.card_range] at this
      have hfuel' : pop.length - (P ∪ current.toFinset).card < fuel := by
        rw [hcard]
        rw [hcard] at hsub
        omega
      obtain ⟨ha, hb, hc, hd, he⟩ := sortLoop_spec pop K hK fuel (idx + 1)
        (P ∪ current.toFinset)
        (processFront pop (idx + 1) counts ranks current).1
        (processFront pop (idx + 1) counts ranks current).2.1
        (processFront pop (idx + 1) counts ranks current).2.2 inv' hfuel'
      have hPmem : ∀ q, q ∈ P ∪ current.toFinset ↔ (q ∈ P ∨ q ∈ current) := by
        intro q
        rw [Finset.mem_union, List.mem_toFinset]
      refine ⟨fun q => ?_, ?_, ?_, ?_, ?_⟩
      · simp only [List.flatten_cons, List.mem_append]
        constructor
        · rintro (hq | hq)
          · exact ⟨inv.curLt q hq, inv.curNotP q hq⟩
          · have := (ha q).mp hq
            exact ⟨this.1, fun hqP =>
              this.2 ((hPmem q).mpr (Or.inl hqP))⟩
        · rintro ⟨hqL, hqP⟩
          by_cases hqC : q ∈ current
          · exact Or.inl hqC
          · refine Or.inr ((ha q).mpr ⟨hqL, ?_⟩)
            rw [hPmem q]
            rintro (h | h)
            · exact hqP h
            · exact hqC h
      · simp only [List.flatten_cons]
        rw [List.nodup_append]
        refine ⟨inv.curNodup, hb, ?_⟩
        intro q hq hq2
        have := (ha q).mp hq2
        exact this.2 ((hPmem q).mpr (Or.inr hq))
      · intro f hf
        rcases List.mem_cons.mp hf with h | h
        · rw [h]
          exact hne
        · exact hc f h
      · intro j hj q hq
        cases j with
        | zero =>
          have hq2 : q ∈ current := hq
          have h1 := he q (Or.inl ((hPmem q).mpr (Or.inr hq2)))
          rw [h1, hrkpres q (Or.inr hq2), inv.curRank q hq2, Nat.add_zero]
        | succ j =>
          have hj' : j < (sortLoop pop fuel (idx + 1)
              (processFront pop (idx + 1) counts ranks current).1
              (processFront pop (idx + 1) counts ranks current).2.1
              (processFront pop (idx + 1) counts ranks current).2.2).1.length := by
            simpa using hj
          have hq' : q ∈ (sortLoop pop fuel (idx + 1)
              (processFront pop (idx + 1) counts ranks current).1
              (processFront pop (idx + 1) counts ranks current).2.1
              (processFront pop (idx + 1) counts ranks current).2.2).1.get
              ⟨j, hj'⟩ := hq
          have := hd j hj' q hq'
          rw [this]
          congr 1
          omega
      · intro q hq
        have h1 := he q (Or.inl ((hPmem q).mpr hq))
        rw [h1, hrkpres q hq]

theorem fast_non_dominated_sort_eq (pop : List Individual) :
    fast_non_dominated_sort pop =
      sortLoop pop (pop.length + 1) 0 (fun i => domCount pop i)
        (fun i => if domCount pop i = 0 ∧ i < pop.length then some 0 else none)
        ((List.range pop.length).filter fun i => decide (domCount pop i = 0)) :=
  rfl

/-- What C10 asserts of `fast_non_dominated_sort`: the returned fronts form a
partition of the population's positions (every position of the population
appears in exactly one front, exactly once), no returned front is empty, and
the `nsgaii_rank` assigned to each member equals the index of the front that
contains it. -/
def sortPartitionClaim (pop : List Individual) : Prop :=
  (∀ i, i < pop.length →
    ((fast_non_dominated_sort pop).1.map (fun f => f.count i)).sum = 1) ∧
  (∀ f ∈ (fast_non_dominated_sort pop).1, f ≠ []) ∧
  (∀ (j : ℕ) (hj : j < (fast_non_dominated_sort pop).1.length),
    ∀ i ∈ (fast_non_dominated_sort pop).1.get ⟨j, hj⟩,
    (fast_non_dominated_sort pop).2 i = some j)

/-- C10: for a population sharing one objective key-set,
`fast_non_dominated_sort` partitions the population into non-empty fronts
and assigns each member the rank equal to its front's index. -/
theorem fast_non_dominated_sort_partitions (pop : List Individual) (K : ℕ)
    (hK : ∀ x ∈ pop, x.fitness.length = K) : sortPartitionClaim pop := by
  obtain ⟨ha, hb, hc, hd, he⟩ := sortLoop_spec pop K hK (pop.length + 1) 0 ∅
    (fun i => domCount pop i)
    (fun i => if domCount pop i = 0 ∧ i < pop.length then some 0 else none)
    ((List.range pop.length).filter fun i => decide (domCount pop i = 0))
    (entry_inv pop) (by simp)
  unfold sortPartitionClaim
  rw [fast_non_dominated_sort_eq]
  refine ⟨?_, hc, ?_⟩
  · intro i hi
    rw [← List.count_flatten]
    have hmem : i ∈ (sortLoop pop (pop.length + 1) 0 (fun i => domCount pop i)
        (fun i => if domCount pop i = 0 ∧ i < pop.length then some 0 else none)
        ((List.range pop.length).filter fun i =>
          decide (domCount pop i = 0))).1.flatten :=
      (ha i).mpr ⟨hi, Finset.not_mem_empty i⟩
    have h1 := List.count_pos_iff.mpr hmem
    have h2 := List.nodup_iff_count_le_one.mp hb i
    omega
  · intro j hj i himem
    have := hd j hj i himem
    rwa [Nat.zero_add] at this

/-- Witness for C10 at the seven-individual test population. -/
theorem fast_non_dominated_sort_partitions_witness :
    (∀ x ∈ popSeven, x.fitness.length = 3) ∧ sortPartitionClaim popSeven :=
  ⟨by decide, fast_non_dominated_sort_partitions popSeven 3 (by decide)⟩
